import Mathlib

/-!
Verification development for the NeuraReview diff-to-position engine and
bounded agentic decision loop.

The Python sources are shallowly embedded: Python strings are `List Char`,
Python `int` is `Int`, floats that only ever hold exact literal confidence
values are `ℚ`, optional values are `Option`, and dataclasses are
structures.  External collaborators (the unified-diff library, the model
responder, the context tool, Python's `hash`) are passed in as explicit
function parameters, so every theorem quantifies over their behaviour.
-/

namespace NeuraReview

/-! ## Python text primitives

`str.strip` / `str.rstrip` / `str.lstrip` treat the six ASCII whitespace
characters below as whitespace; `_leading_whitespace` in `ai_reviewer.py`
only counts spaces and tabs. -/

/-- The characters Python's default `str.strip`/`rstrip`/`lstrip` remove. -/
def isPyWs (c : Char) : Bool :=
  c = ' ' || c = '\t' || c = '\n' || c = '\x0d' || c = '\x0b' || c = '\x0c'

/-- Characters counted as indentation by `_leading_whitespace` (space, tab). -/
def isIndentChar (c : Char) : Bool :=
  c = ' ' || c = '\t'

/-- Python `s.rstrip()`. -/
def pyRstrip (l : List Char) : List Char :=
  (l.reverse.dropWhile isPyWs).reverse

/-- Python `s.lstrip()`. -/
def pyLstrip (l : List Char) : List Char :=
  l.dropWhile isPyWs

/-- Python `s.strip()`. -/
def pyStrip (l : List Char) : List Char :=
  pyLstrip (pyRstrip l)

/-- A line is blank when `ln.strip()` is falsy, i.e. every char is whitespace. -/
def isBlankLine (l : List Char) : Bool :=
  l.all isPyWs

/-- `_leading_whitespace` (`ai_reviewer.py:436`): the exact leading run of
spaces/tabs of a line. -/
def leadingWhitespace (l : List Char) : List Char :=
  l.takeWhile isIndentChar

/-- `leading_ws` inside `_reindent_suggestion` (`ai_reviewer.py:455`): the
number of leading space/tab characters. -/
def leadingWsLen (l : List Char) : Nat :=
  (l.takeWhile isIndentChar).length

/-- Python `s.split("\n")` (never returns an empty list). -/
def splitNl : List Char → List (List Char)
  | [] => [[]]
  | c :: rest =>
    if c = '\n' then [] :: splitNl rest
    else
      match splitNl rest with
      | [] => [[c]]
      | l :: ls => (c :: l) :: ls

/-- Python `"\n".join(lines)`. -/
def joinNl : List (List Char) → List Char
  | [] => []
  | [l] => l
  | l :: ls => l ++ '\n' :: joinNl ls

/-- Shorthand for string literals as char lists. -/
def str (s : String) : List Char :=
  s.data

theorem splitNl_ne_nil (s : List Char) : splitNl s ≠ [] := by
  induction s with
  | nil => simp [splitNl]
  | cons c rest ih =>
    simp only [splitNl]
    split
    · simp
    · cases h : splitNl rest with
      | nil => simp
      | cons l ls => simp

theorem joinNl_cons (a : List Char) (L : List (List Char)) (h : L ≠ []) :
    joinNl (a :: L) = a ++ '\n' :: joinNl L := by
  cases L with
  | nil => exact absurd rfl h
  | cons b bs => rfl

theorem splitNl_cons_nl (rest : List Char) :
    splitNl ('\n' :: rest) = [] :: splitNl rest := by
  simp [splitNl]

theorem splitNl_cons_other (c : Char) (rest l : List Char) (ls : List (List Char))
    (hc : c ≠ '\n') (h : splitNl rest = l :: ls) :
    splitNl (c :: rest) = (c :: l) :: ls := by
  simp [splitNl, if_neg hc, h]

theorem joinNl_splitNl (s : List Char) : joinNl (splitNl s) = s := by
  induction s with
  | nil => rfl
  | cons c rest ih =>
    by_cases hc : c = '\n'
    · subst hc
      rw [splitNl_cons_nl, joinNl_cons _ _ (splitNl_ne_nil rest), ih]
      simp
    · cases h : splitNl rest with
      | nil => exact absurd h (splitNl_ne_nil rest)
      | cons l ls =>
        rw [splitNl_cons_other c rest l ls hc h]
        cases ls with
        | nil =>
          rw [h] at ih
          simp only [joinNl] at ih ⊢
          rw [ih]
        | cons l2 ls2 =>
          rw [joinNl_cons _ _ (by simp)]
          rw [h, joinNl_cons _ _ (by simp)] at ih
          simpa using ih

/-- Membership in `splitNl s` means the line contains no newline. -/
theorem splitNl_no_nl (s : List Char) :
    ∀ l ∈ splitNl s, '\n' ∉ l := by
  induction s with
  | nil =>
    intro l hl
    simp only [splitNl, List.mem_singleton] at hl
    simp [hl]
  | cons c rest ih =>
    intro l hl
    by_cases hc : c = '\n'
    · subst hc
      rw [splitNl_cons_nl] at hl
      rcases List.mem_cons.mp hl with h1 | h1
      · simp [h1]
      · exact ih l h1
    · cases h : splitNl rest with
      | nil => exact absurd h (splitNl_ne_nil rest)
      | cons x xs =>
        rw [splitNl_cons_other c rest x xs hc h] at hl
        rcases List.mem_cons.mp hl with h1 | h1
        · subst h1
          intro hmem
          rcases List.mem_cons.mp hmem with h2 | h2
          · exact hc h2.symm
          · exact ih x (by rw [h]; exact List.mem_cons_self x xs) h2
        · exact ih l (by rw [h]; exact List.mem_cons_of_mem x h1)

theorem splitNl_single (a : List Char) (ha : '\n' ∉ a) : splitNl a = [a] := by
  induction a with
  | nil => rfl
  | cons c cs ih =>
    have hc : c ≠ '\n' := fun h => ha (by simp [h])
    have hcs : '\n' ∉ cs := fun h => ha (List.mem_cons_of_mem c h)
    exact splitNl_cons_other c cs cs [] hc (ih hcs)

theorem splitNl_append_nl (a t : List Char) (ha : '\n' ∉ a) :
    splitNl (a ++ '\n' :: t) = a :: splitNl t := by
  induction a with
  | nil => simpa using splitNl_cons_nl t
  | cons c cs ih =>
    have hc : c ≠ '\n' := fun h => ha (by simp [h])
    have hcs : '\n' ∉ cs := fun h => ha (List.mem_cons_of_mem c h)
    cases h : splitNl t with
    | nil => exact absurd h (splitNl_ne_nil t)
    | cons x xs =>
      rw [h] at ih
      simpa using splitNl_cons_other c (cs ++ '\n' :: t) (cs) (x :: xs) hc (ih hcs)

/-- `splitNl` is a left inverse of `joinNl` on non-empty, newline-free lines. -/
theorem splitNl_joinNl (L : List (List Char)) (hne : L ≠ [])
    (hnl : ∀ l ∈ L, '\n' ∉ l) : splitNl (joinNl L) = L := by
  induction L with
  | nil => exact absurd rfl hne
  | cons a as ih =>
    cases as with
    | nil => exact splitNl_single a (hnl a (by simp))
    | cons b bs =>
      rw [joinNl_cons _ _ (by simp),
        splitNl_append_nl a _ (hnl a (by simp)),
        ih (by simp) (fun l hl => hnl l (List.mem_cons_of_mem a hl))]

theorem indentChar_isPyWs {c : Char} (h : isIndentChar c = true) : isPyWs c = true := by
  simp only [isIndentChar, Bool.or_eq_true, decide_eq_true_eq] at h
  rcases h with h1 | h1 <;> simp [isPyWs, h1]

theorem dropWhile_self_idem (p : α → Bool) (l : List α) :
    (l.dropWhile p).dropWhile p = l.dropWhile p := by
  induction l with
  | nil => rfl
  | cons a t ih =>
    by_cases h : p a
    · simp [List.dropWhile_cons, h, ih]
    · simp [List.dropWhile_cons, h]

theorem dropWhile_eq_nil_iff_all (p : α → Bool) (l : List α) :
    l.dropWhile p = [] ↔ ∀ x ∈ l, p x := by
  induction l with
  | nil => simp
  | cons a t ih =>
    by_cases h : p a
    · simp [List.dropWhile_cons, h, ih]
    · simp [List.dropWhile_cons, h]

theorem dropWhile_cons_head_false (p : α → Bool) :
    ∀ (l : List α) (x : α) (xs : List α), l.dropWhile p = x :: xs → p x = false := by
  intro l
  induction l with
  | nil => intro x xs h; simp at h
  | cons a t ih =>
    intro x xs h
    by_cases hp : p a
    · rw [List.dropWhile_cons, if_pos hp] at h
      exact ih x xs h
    · rw [List.dropWhile_cons, if_neg hp] at h
      cases h
      exact Bool.eq_false_iff.mpr hp

theorem pyRstrip_append (a b : List Char) :
    pyRstrip (a ++ b) = if pyRstrip b = [] then pyRstrip a else a ++ pyRstrip b := by
  simp only [pyRstrip, List.reverse_append, List.dropWhile_append]
  by_cases h : (List.dropWhile isPyWs b.reverse).isEmpty
  · rw [if_pos h]
    have hb : (List.dropWhile isPyWs b.reverse).reverse = [] := by
      rw [List.isEmpty_iff] at h
      simp [h]
    rw [if_pos hb]
  · rw [if_neg h]
    have hb : (List.dropWhile isPyWs b.reverse).reverse ≠ [] := by
      rw [List.isEmpty_iff] at h
      simpa using h
    rw [if_neg hb, List.reverse_append, List.reverse_reverse]

theorem pyRstrip_idem (l : List Char) : pyRstrip (pyRstrip l) = pyRstrip l := by
  simp [pyRstrip, List.reverse_reverse, dropWhile_self_idem]

theorem pyRstrip_eq_nil_iff (l : List Char) :
    pyRstrip l = [] ↔ isBlankLine l = true := by
  simp only [pyRstrip, List.reverse_eq_nil_iff, dropWhile_eq_nil_iff_all,
    List.mem_reverse, isBlankLine, List.all_eq_true]

theorem pyRstrip_subset {c : Char} {l : List Char} (h : c ∈ pyRstrip l) : c ∈ l := by
  simp only [pyRstrip, List.mem_reverse] at h
  exact List.mem_reverse.mp ((List.dropWhile_sublist isPyWs).mem h)

/-- `pyRstrip` splits a line into the kept prefix and an all-whitespace tail. -/
theorem pyRstrip_decomp (l : List Char) :
    l = pyRstrip l ++ (l.reverse.takeWhile isPyWs).reverse ∧
      (∀ c ∈ (l.reverse.takeWhile isPyWs).reverse, isPyWs c = true) := by
  constructor
  · conv_lhs => rw [← List.reverse_reverse l, ← List.takeWhile_append_dropWhile isPyWs l.reverse]
    rw [List.reverse_append]
    rfl
  · intro c hc
    exact List.mem_takeWhile_imp (List.mem_reverse.mp hc)

/-- If `pyRstrip l` is non-empty, its last character is not whitespace. -/
theorem pyRstrip_last_not_ws (l : List Char) (h : pyRstrip l ≠ []) :
    ∃ c ∈ pyRstrip l, isPyWs c = false := by
  have hrev : l.reverse.dropWhile isPyWs ≠ [] := by
    intro hnil
    exact h (by simp [pyRstrip, hnil])
  cases hd : l.reverse.dropWhile isPyWs with
  | nil => exact absurd hd hrev
  | cons x xs =>
    refine ⟨x, ?_, ?_⟩
    · simp [pyRstrip, hd]
    · exact dropWhile_cons_head_false isPyWs l.reverse x xs hd

/-- Stripping trailing whitespace never produces a blank non-empty line, and
keeps the leading indentation intact. -/
theorem pyRstrip_keeps_lws (l : List Char) (h : pyRstrip l ≠ []) :
    isBlankLine (pyRstrip l) = false ∧
      leadingWsLen (pyRstrip l) = leadingWsLen l := by
  obtain ⟨c, hc, hcws⟩ := pyRstrip_last_not_ws l h
  have hblank : isBlankLine (pyRstrip l) = false := by
    rw [isBlankLine, List.all_eq_false]
    exact ⟨c, hc, by simp [hcws]⟩
  refine ⟨hblank, ?_⟩
  obtain ⟨hsplit, hws⟩ := pyRstrip_decomp l
  have hne : (pyRstrip l).takeWhile isIndentChar ≠ pyRstrip l := by
    intro heq
    have : isIndentChar c = true := List.mem_takeWhile_imp (by rw [heq]; exact hc)
    rw [indentChar_isPyWs this] at hcws
    exact Bool.true_eq_false.mp hcws
  have hlen : ((pyRstrip l).takeWhile isIndentChar).length ≠ (pyRstrip l).length := by
    intro heq
    exact hne (List.Sublist.eq_of_length (List.takeWhile_sublist isIndentChar) heq)
  conv_rhs => rw [leadingWsLen, hsplit]
  rw [List.takeWhile_append, if_neg hlen]
  rfl

/-- Companion of Python's trailing `.rstrip()` on a joined line list: drop
trailing all-whitespace lines and rstrip the last surviving line. -/
def stripTrail : List (List Char) → List (List Char)
  | [] => []
  | ln :: rest =>
    match stripTrail rest with
    | [] =>
      match pyRstrip ln with
      | [] => []
      | l => [l]
    | r => ln :: r

theorem pyRstrip_joinNl (R : List (List Char)) :
    pyRstrip (joinNl R) = joinNl (stripTrail R) ∧
      (stripTrail R ≠ [] → joinNl (stripTrail R) ≠ []) := by
  induction R with
  | nil => simp [joinNl, stripTrail, pyRstrip]
  | cons ln rest ih =>
    obtain ⟨ih1, ih2⟩ := ih
    by_cases hrest : stripTrail rest = []
    · have hnil : pyRstrip (joinNl rest) = [] := by rw [ih1, hrest]; rfl
      have houter : pyRstrip (joinNl (ln :: rest)) = pyRstrip ln := by
        cases rest with
        | nil => rfl
        | cons b bs =>
          rw [joinNl_cons _ _ (by simp), pyRstrip_append]
          have hinner : pyRstrip ('\n' :: joinNl (b :: bs)) = [] := by
            have : ('\n' :: joinNl (b :: bs)) = ['\n'] ++ joinNl (b :: bs) := rfl
            rw [this, pyRstrip_append, if_pos hnil]
            rfl
          rw [if_pos hinner]
      have hst : stripTrail (ln :: rest) =
          match pyRstrip ln with | [] => [] | l => [l] := by
        simp only [stripTrail, hrest]
      constructor
      · rw [houter, hst]
        cases hr : pyRstrip ln with
        | nil => rfl
        | cons x xs => rfl
      · rw [hst]
        cases hr : pyRstrip ln with
        | nil => simp
        | cons x xs => simp [joinNl]
    · have hjr : joinNl (stripTrail rest) ≠ [] := ih2 hrest
      have hnn : pyRstrip (joinNl rest) ≠ [] := by rw [ih1]; exact hjr
      cases hst : stripTrail rest with
      | nil => exact absurd hst hrest
      | cons r rs =>
        have hrestne : rest ≠ [] := by
          intro h
          rw [h] at hst
          simp [stripTrail] at hst
        have houter : pyRstrip (joinNl (ln :: rest)) = ln ++ '\n' :: joinNl (r :: rs) := by
          rw [joinNl_cons _ _ hrestne, pyRstrip_append]
          have hinner : pyRstrip ('\n' :: joinNl rest) = '\n' :: joinNl (r :: rs) := by
            have h2 : ('\n' :: joinNl rest) = ['\n'] ++ joinNl rest := rfl
            rw [h2, pyRstrip_append, if_neg hnn, ih1, hst]
            rfl
          rw [hinner, if_neg (by simp)]
        have hstc : stripTrail (ln :: rest) = ln :: r :: rs := by
          simp only [stripTrail, hst]
        constructor
        · rw [houter, hstc]
          exact (joinNl_cons ln (r :: rs) (by simp)).symm
        · rw [hstc, joinNl_cons ln (r :: rs) (by simp)]
          simp

theorem stripTrail_mem {x : List Char} {R : List (List Char)} (h : x ∈ stripTrail R) :
    x ∈ R ∨ ∃ y ∈ R, x = pyRstrip y := by
  induction R with
  | nil => simp [stripTrail] at h
  | cons ln rest ih =>
    by_cases hrest : stripTrail rest = []
    · simp only [stripTrail, hrest] at h
      cases hr : pyRstrip ln with
      | nil => rw [hr] at h; simp at h
      | cons c cs =>
        rw [hr] at h
        rcases List.mem_singleton.mp h with rfl
        exact Or.inr ⟨ln, by simp, hr.symm⟩
    · cases hst : stripTrail rest with
      | nil => exact absurd hst hrest
      | cons r rs =>
        simp only [stripTrail, hst] at h
        rcases List.mem_cons.mp h with rfl | hmem
        · exact Or.inl (by simp)
        · rcases ih (by rw [hst]; exact hmem) with h1 | ⟨y, hy, hxy⟩
          · exact Or.inl (List.mem_cons_of_mem ln h1)
          · exact Or.inr ⟨y, List.mem_cons_of_mem ln hy, hxy⟩

/-! ## Data model (`models.py`) -/

/-- `ReviewSeverity` (`models.py:8`). -/
inductive ReviewSeverity where
  | critical
  | high
  | medium
  | low
  | info
deriving DecidableEq, Repr

/-- `ChangeType` (`models.py:18`): only these five members exist. -/
inductive ChangeType where
  | bug
  | performance
  | security
  | memory
  | error_handling
deriving DecidableEq, Repr

/-- `LineType` (`models.py:28`). -/
inductive LineType where
  | added
  | removed
  | context
deriving DecidableEq, Repr

/-- The `.value` string of a `ReviewSeverity` member. -/
def severityValue : ReviewSeverity → List Char
  | .critical => str "critical"
  | .high => str "high"
  | .medium => str "medium"
  | .low => str "low"
  | .info => str "info"

/-- The `.value` string of a `LineType` member (`"+"`, `"-"`, `" "`). -/
def lineTypeValue : LineType → List Char
  | .added => str "+"
  | .removed => str "-"
  | .context => str " "

/-- `DiffLine` (`models.py:36`). -/
structure DiffLine where
  type : LineType
  content : List Char
  old_line_number : Option Int
  new_line_number : Option Int
deriving DecidableEq, Repr

/-- `DiffHunk` (`models.py:46`). -/
structure DiffHunk where
  old_start : Int
  old_count : Int
  new_start : Int
  new_count : Int
  lines : List DiffLine
  header : List Char
deriving DecidableEq, Repr

/-- `FileDiff` (`models.py:58`). -/
structure FileDiff where
  filename : List Char
  old_filename : Option (List Char)
  status : List Char
  hunks : List DiffHunk
  patch : List Char
  additions : Int
  deletions : Int
deriving DecidableEq, Repr

/-- `ReviewComment` (`models.py:71`). -/
structure ReviewComment where
  body : List Char
  path : List Char
  line : Option Int
  start_line : Option Int
  side : Option (List Char)
  start_side : Option (List Char)
  severity : ReviewSeverity
deriving DecidableEq, Repr

/-- `ReviewIssue` (`models.py:84`).  The dataclass declares a default
`change_type = ChangeType.OTHER`, but `ChangeType` has no member `OTHER`
(see claim C7), so no default is representable here: every construction
site in the source passes `change_type` explicitly.  `ai_side` models the
`_ai_side` attribute patched on post-hoc by `agentic_reviewer.py:287`. -/
structure ReviewIssue where
  title : List Char
  description : List Char
  severity : ReviewSeverity
  file_path : List Char
  line : Option Int
  start_line : Option Int
  suggestion : Option (List Char)
  category : List Char
  change_type : ChangeType
  ai_side : Option (List Char)
deriving DecidableEq, Repr

/-- `ReviewAnalysis` (`models.py:100`); `confidence` only ever holds exact
literal values, embedded as rationals. -/
structure ReviewAnalysis where
  overall_comment : List Char
  issues : List ReviewIssue
  comments : List ReviewComment
  file_path : List Char
  confidence : ℚ
deriving DecidableEq, Repr

/-! ## Python `min`/`max` over non-empty lists, and stable `sorted` -/

/-- Python `min(l)` for a non-empty list of ints (callers guard emptiness). -/
def listMinInt : List Int → Int
  | [] => 0
  | x :: xs => xs.foldl min x

/-- Python `max(l)` for a non-empty list of ints (callers guard emptiness). -/
def listMaxInt : List Int → Int
  | [] => 0
  | x :: xs => xs.foldl max x

/-- Python `min(l)` for a non-empty list of naturals. -/
def listMinNat : List Nat → Nat
  | [] => 0
  | x :: xs => xs.foldl min x

/-- Stable insertion used to model Python's stable `sorted(..., key=...)`:
an element goes before the first existing element of key ≥ its own. -/
def insertByKey (key : α → Int) (a : α) : List α → List α
  | [] => [a]
  | b :: bs => if key b < key a then b :: insertByKey key a bs else a :: b :: bs

/-- Python `sorted(l, key=key)` (a stable sort). -/
def sortByKey (key : α → Int) : List α → List α
  | [] => []
  | a :: rest => insertByKey key a (sortByKey key rest)

/-! ## Suggestion cleaning and re-indentation (`ai_reviewer.py:436-510`) -/

/-- The per-line transformation of `_reindent_suggestion`
(`ai_reviewer.py:464-470`): blank lines pass through, non-blank lines lose
`minIndent` leading characters (or are `lstrip`ped when too short) and gain
the base indentation. -/
def reindentLine (base : List Char) (minIndent : Nat) (ln : List Char) : List Char :=
  if isBlankLine ln then ln
  else base ++ (if minIndent ≤ ln.length then ln.drop minIndent else pyLstrip ln)

/-- `min_indent` (`ai_reviewer.py:461`): minimal space/tab indentation over
the non-blank lines. -/
def minCommonIndent (lines : List (List Char)) : Nat :=
  listMinNat ((lines.filter (fun ln => !isBlankLine ln)).map leadingWsLen)

/-- The `reindented` list built by the loop at `ai_reviewer.py:463-470`. -/
def reindentedLines (suggestion base : List Char) : List (List Char) :=
  (splitNl suggestion).map (reindentLine base (minCommonIndent (splitNl suggestion)))

/-- The safety filter at `ai_reviewer.py:474-478` keeps a line unless it is
non-blank with leading whitespace shorter than the base indentation. -/
def keepLine (baseLen : Nat) (ln : List Char) : Bool :=
  !(!isBlankLine ln && decide (leadingWsLen ln < baseLen))

/-- `_reindent_suggestion` (`ai_reviewer.py:443`). -/
def reindentSuggestion (suggestion base : List Char) : List Char :=
  if (splitNl suggestion).filter (fun ln => !isBlankLine ln) = [] then suggestion
  else
    let normalized := pyRstrip (joinNl (reindentedLines suggestion base))
    pyRstrip (joinNl ((splitNl normalized).filter (keepLine base.length)))

/-- `_clean_suggestion` (`ai_reviewer.py:494`). -/
def cleanSuggestion (s : List Char) : List Char :=
  if s = [] then s
  else
    let cleaned := pyStrip s
    let cleaned2 :=
      if List.isPrefixOf (str "```") cleaned then
        let lines := splitNl cleaned
        let lines2 := if List.isPrefixOf (str "```") (lines.headD []) then lines.tail else lines
        let lines3 :=
          if lines2 ≠ [] ∧ pyStrip (lines2.getLastD []) = str "```" then lines2.dropLast
          else lines2
        joinNl lines3
      else cleaned
    pyStrip cleaned2

/-- Python `str.capitalize()`. -/
def pyCapitalize (l : List Char) : List Char :=
  match l with
  | [] => []
  | c :: cs => c.toUpper :: cs.map Char.toLower

/-- The severity → badge colour map (`ai_reviewer.py:483-489`, duplicated at
`agentic_reviewer.py:350-356`). -/
def severityBadgeColor : ReviewSeverity → List Char
  | .critical => str "red"
  | .high => str "orange"
  | .medium => str "yellow"
  | .low => str "blue"
  | .info => str "informational"

/-- `_severity_badge_markdown` (`ai_reviewer.py:481`, duplicated at
`agentic_reviewer.py:348`). -/
def severityBadgeMarkdown (sev : ReviewSeverity) : List Char :=
  let label := pyCapitalize (severityValue sev)
  str "![Severity: " ++ label ++ str "](https://img.shields.io/badge/Severity-" ++
    label ++ str "-" ++ severityBadgeColor sev ++ str ")"

/-! ## Placement resolver (`ai_reviewer.py:312-434`) -/

/-- The scan loop inside `longest_consecutive_range`
(`ai_reviewer.py:335-346`), carried over the sorted tail. -/
def lcrScan (curStart curEnd bestStart bestEnd : Int) : List Int → Int × Int
  | [] =>
    if bestEnd - bestStart < curEnd - curStart then (curStart, curEnd)
    else (bestStart, bestEnd)
  | n :: rest =>
    if n = curEnd + 1 then lcrScan curStart n bestStart bestEnd rest
    else if bestEnd - bestStart < curEnd - curStart then lcrScan n n curStart curEnd rest
    else lcrScan n n bestStart bestEnd rest

/-- `longest_consecutive_range` (`ai_reviewer.py:327-346`).  In the typed
embedding the numbers are already non-`None`, so the `n is not None` filter
is the identity. -/
def longestConsecutiveRange (numbers : List Int) : Option (Int × Int) :=
  match numbers with
  | [] => none
  | _ =>
    match sortByKey id numbers with
    | [] => none
    | n0 :: rest => some (lcrScan n0 n0 n0 n0 rest)

/-- `range_length` (`ai_reviewer.py:366-369`). -/
def rangeLength : Option (Int × Int) → Int
  | none => 0
  | some r => r.2 - r.1

/-- Python truthiness filter `[n for n in nums if n]`: drops `None` and `0`. -/
def truthyNums (l : List (Option Int)) : List Int :=
  l.filterMap (fun o =>
    match o with
    | some n => if n = 0 then none else some n
    | none => none)

/-- `added_nums` (`ai_reviewer.py:352`). -/
def addedNumsOf (diff_lines : List DiffLine) : List Int :=
  truthyNums ((diff_lines.filter (fun dl => dl.type = LineType.added)).map
    (fun dl => dl.new_line_number))

/-- `removed_nums` (`ai_reviewer.py:353-355`). -/
def removedNumsOf (diff_lines : List DiffLine) : List Int :=
  truthyNums ((diff_lines.filter (fun dl => dl.type = LineType.removed)).map
    (fun dl => dl.old_line_number))

/-- Placeholder `DiffLine` for list-index defaults that are unreachable in
the source (`added_lines[0]` is only read when `added_lines` is non-empty). -/
def dummyDiffLine : DiffLine :=
  { type := .context, content := [], old_line_number := none, new_line_number := none }

/-- The resolved anchor of `_create_comment_from_diff_lines`:
(start_line_number, line_number, side, start_side, ref_line). -/
abbrev SelResult : Type :=
  Option Int × Option Int × List Char × Option (List Char) × DiffLine

/-- The `primary_line` of the fallback (`ai_reviewer.py:389-401`): the
first Added line, else the first Removed line, else the first line. -/
def primaryLineOf (diff_lines : List DiffLine) : DiffLine :=
  match diff_lines.find? (fun dl => dl.type = LineType.added) with
  | some dl => dl
  | none =>
    match diff_lines.find? (fun dl => dl.type = LineType.removed) with
    | some dl => dl
    | none => diff_lines.headD dummyDiffLine

/-- The single-line fallback (`ai_reviewer.py:388-412`): prefer the first
Added line, then the first Removed line, then the first line of any type;
`side` follows the chosen line's type and no range is produced. -/
def fallbackSelection (diff_lines : List DiffLine) : SelResult :=
  match (primaryLineOf diff_lines).type with
  | .added =>
    (none, (primaryLineOf diff_lines).new_line_number, str "RIGHT", none,
      primaryLineOf diff_lines)
  | .removed =>
    (none, (primaryLineOf diff_lines).old_line_number, str "LEFT", none,
      primaryLineOf diff_lines)
  | .context =>
    (none, (primaryLineOf diff_lines).new_line_number, str "RIGHT", none,
      primaryLineOf diff_lines)

/-- The anchor selection of `_create_comment_from_diff_lines`
(`ai_reviewer.py:360-412`): the Added run is chosen when its length is
`≥ max(1, removed run length)`, else the Removed run when its length is
`≥ 1`, else the single-line fallback. -/
def selectAnchor (diff_lines : List DiffLine) : SelResult :=
  let added_lines := diff_lines.filter (fun dl => dl.type = LineType.added)
  let removed_lines := diff_lines.filter (fun dl => dl.type = LineType.removed)
  let added_range := longestConsecutiveRange (addedNumsOf diff_lines)
  let removed_range := longestConsecutiveRange (removedNumsOf diff_lines)
  let removedBranch : SelResult :=
    match removed_range with
    | some r =>
      if 1 ≤ rangeLength (some r) then
        (some r.1, some r.2, str "LEFT", some (str "LEFT"),
          match removed_lines.find? (fun dl => dl.old_line_number = some r.1) with
          | some dl => dl
          | none => removed_lines.headD dummyDiffLine)
      else fallbackSelection diff_lines
    | none => fallbackSelection diff_lines
  match added_range with
  | some r =>
    if max 1 (rangeLength removed_range) ≤ rangeLength (some r) then
      (some r.1, some r.2, str "RIGHT", some (str "RIGHT"),
        match added_lines.find? (fun dl => dl.new_line_number = some r.1) with
        | some dl => dl
        | none => added_lines.headD dummyDiffLine)
    else removedBranch
  | none => removedBranch

/-- `_create_comment_from_diff_lines` (`ai_reviewer.py:312-434`). -/
def createCommentFromDiffLines (diff_lines : List DiffLine) (issue : ReviewIssue)
    (filename : List Char) (hunk : DiffHunk) : Option ReviewComment :=
  match diff_lines with
  | [] => none
  | _ =>
    let sel := selectAnchor diff_lines
    let start_line_number := sel.1
    let line_number := sel.2.1
    let side := sel.2.2.1
    let start_side := sel.2.2.2.1
    let ref_line := sel.2.2.2.2
    let badge := severityBadgeMarkdown issue.severity
    let body0 := badge ++ str "\n\n**" ++ issue.title ++ str "**\n\n" ++ issue.description
    let comment_body :=
      match issue.suggestion with
      | some sug =>
        if sug ≠ [] then
          let raw := cleanSuggestion sug
          if raw ≠ [] then
            let base_indent := leadingWhitespace ref_line.content
            let normalized := reindentSuggestion raw base_indent
            body0 ++ str "\n\n```suggestion\n" ++ normalized ++ str "\n```"
          else body0
        else body0
      | none => body0
    some { body := comment_body, path := filename, line := line_number,
           start_line := start_line_number, side := some side,
           start_side := if start_line_number ≠ none then start_side else none,
           severity := issue.severity }

/-! ## Diff parser (`diff_parser.py`)

The third-party `unidiff.PatchSet` is an external collaborator: it is
modelled as an explicit parser parameter returning either a parse failure
or the per-file lists of raw hunks (with the raw per-line added/removed
flags and the hunk header the library exposes). -/

/-- The `is_added` / `is_removed` / context classification a `unidiff` line
carries. -/
inductive RawKind where
  | added
  | removed
  | context
deriving DecidableEq, Repr

/-- One raw line of a parsed hunk as exposed by the diff library. -/
structure RawLine where
  kind : RawKind
  value : List Char
deriving DecidableEq, Repr

/-- One raw hunk as exposed by the diff library: start/length header fields,
the body lines, and the header text (`str(hunk).split("\n")[0]`). -/
structure RawHunk where
  source_start : Int
  source_length : Int
  target_start : Int
  target_length : Int
  lines : List RawLine
  header : List Char
deriving DecidableEq, Repr

/-- Python `value.rstrip("\n")`: strip only trailing newline characters. -/
def rstripNlOnly (l : List Char) : List Char :=
  (l.reverse.dropWhile (fun c => c = '\n')).reverse

/-- The cursor walk of `_parse_hunk` (`diff_parser.py:62-94`): Added lines
take and advance the new cursor, Removed lines the old cursor, Context lines
both. -/
def parseHunkLines (oldStart newStart : Int) : List RawLine → List DiffLine
  | [] => []
  | rl :: rest =>
    match rl.kind with
    | .added =>
      { type := .added, content := rstripNlOnly rl.value,
        old_line_number := none, new_line_number := some newStart } ::
        parseHunkLines oldStart (newStart + 1) rest
    | .removed =>
      { type := .removed, content := rstripNlOnly rl.value,
        old_line_number := some oldStart, new_line_number := none } ::
        parseHunkLines (oldStart + 1) newStart rest
    | .context =>
      { type := .context, content := rstripNlOnly rl.value,
        old_line_number := some oldStart, new_line_number := some newStart } ::
        parseHunkLines (oldStart + 1) (newStart + 1) rest

/-- `_parse_hunk` (`diff_parser.py:62-103`). -/
def parseHunk (h : RawHunk) : DiffHunk :=
  { old_start := h.source_start, old_count := h.source_length,
    new_start := h.target_start, new_count := h.target_length,
    lines := parseHunkLines h.source_start h.target_start h.lines,
    header := h.header }

/-- `_ensure_patch_headers` (`diff_parser.py:54-60`). -/
def ensurePatchHeaders (patch filename : List Char) : List Char :=
  if List.isPrefixOf (str "--- ") patch then patch
  else (str "--- a/" ++ filename ++ str "\n+++ b/" ++ filename ++ str "\n") ++ patch

/-- `parse_file_diff` (`diff_parser.py:16-52`).  `parsePatch` stands for the
external `unidiff.PatchSet` call: `.error` models any raised parse
exception (both `except` arms return the input unchanged), `.ok` yields the
files' raw hunk lists, and an empty patch set hits the early return. -/
def parseFileDiff (parsePatch : List Char → Except Unit (List (List RawHunk)))
    (fd : FileDiff) : FileDiff :=
  if fd.patch = [] then fd
  else
    match parsePatch (ensurePatchHeaders fd.patch fd.filename) with
    | .error _ => fd
    | .ok patchSet =>
      if patchSet = [] then fd
      else { fd with hunks := (patchSet.map (fun pf => pf.map parseHunk)).flatten }

/-! ## Comment manager (`comment_manager.py`)

Python's `hash` on comment bodies is an external function parameter. -/

/-- `severity_order` (`comment_manager.py:221-227`). -/
def severityRank : ReviewSeverity → Int
  | .critical => 0
  | .high => 1
  | .medium => 2
  | .low => 3
  | .info => 4

/-- `filter_comments_by_confidence` (`comment_manager.py:179-194`). -/
def filterCommentsByConfidence (min_confidence : ℚ) :
    List ReviewAnalysis → List ReviewComment
  | [] => []
  | a :: rest =>
    if min_confidence ≤ a.confidence then
      a.comments ++ filterCommentsByConfidence min_confidence rest
    else filterCommentsByConfidence min_confidence rest

/-- The dedup key `(path, line, hash(body))` (`comment_manager.py:205`). -/
abbrev DedupKey : Type := List Char × Option Int × Int

/-- The loop of `deduplicate_comments` with its `seen` set
(`comment_manager.py:200-211`). -/
def dedupGo (hash : List Char → Int) (seen : List DedupKey) :
    List ReviewComment → List ReviewComment
  | [] => []
  | c :: rest =>
    let key : DedupKey := (c.path, c.line, hash c.body)
    if key ∈ seen then dedupGo hash seen rest
    else c :: dedupGo hash (key :: seen) rest

/-- `deduplicate_comments` (`comment_manager.py:196-211`). -/
def deduplicateComments (hash : List Char → Int)
    (comments : List ReviewComment) : List ReviewComment :=
  dedupGo hash [] comments

/-- The sort key used by `limit_comments_per_file`. -/
def commentSeverityKey (c : ReviewComment) : Int :=
  severityRank c.severity

/-- The capping loop of `limit_comments_per_file` with its `file_counts`
dictionary (`comment_manager.py:217-243`). -/
def limitGo (max_per_file : Nat) (counts : List Char → Nat) :
    List ReviewComment → List ReviewComment
  | [] => []
  | c :: rest =>
    let current := counts c.path
    if current < max_per_file then
      c :: limitGo max_per_file (fun p => if p = c.path then current + 1 else counts p) rest
    else limitGo max_per_file counts rest

/-- `limit_comments_per_file` (`comment_manager.py:213-243`). -/
def limitCommentsPerFile (comments : List ReviewComment) (max_per_file : Nat) :
    List ReviewComment :=
  limitGo max_per_file (fun _ => 0) (sortByKey commentSeverityKey comments)

/-- Decimal rendering of a count interpolated into an f-string. -/
def natRepr (n : Nat) : List Char :=
  (Nat.repr n).data

/-- `severity_counts` of `format_overall_review` (`comment_manager.py:54-62`). -/
def severityCount (analyses : List ReviewAnalysis) (sev : ReviewSeverity) : Nat :=
  ((analyses.map (fun a => a.issues)).flatten.filter (fun i => i.severity = sev)).length

/-- One line of the file-by-file summary (`comment_manager.py:112-133`). -/
def fileSummaryLine (a : ReviewAnalysis) : List Char :=
  if a.issues ≠ [] then
    let critical_count := (a.issues.filter (fun i => i.severity = ReviewSeverity.critical)).length
    let high_count := (a.issues.filter (fun i => i.severity = ReviewSeverity.high)).length
    let status_icon :=
      if 0 < critical_count then str "🔴" else if 0 < high_count then str "🟠" else str "🟡"
    status_icon ++ str " `" ++ a.file_path ++ str "` - " ++ natRepr a.issues.length ++ str " issues"
  else str "✅ `" ++ a.file_path ++ str "` - No issues"

/-- One severity line of the issue summary (`comment_manager.py:76-100`). -/
def severitySummaryLines (analyses : List ReviewAnalysis) : List (List Char) :=
  (if 0 < severityCount analyses .critical then
    [str "🔴 **" ++ natRepr (severityCount analyses .critical) ++
      str " Critical** - Requires immediate attention"] else []) ++
  (if 0 < severityCount analyses .high then
    [str "🟠 **" ++ natRepr (severityCount analyses .high) ++
      str " High** - Should be addressed"] else []) ++
  (if 0 < severityCount analyses .medium then
    [str "🟡 **" ++ natRepr (severityCount analyses .medium) ++
      str " Medium** - Consider addressing"] else []) ++
  (if 0 < severityCount analyses .low then
    [str "🔵 **" ++ natRepr (severityCount analyses .low) ++
      str " Low** - Minor improvements"] else []) ++
  (if 0 < severityCount analyses .info then
    [str "ℹ️ **" ++ natRepr (severityCount analyses .info) ++
      str " Info** - Educational notes"] else [])

/-- `format_overall_review` (`comment_manager.py:48-141`). -/
def formatOverallReview (analyses : List ReviewAnalysis) : List Char :=
  if analyses = [] then str "No files were analyzed in this review."
  else
    let files_with_issues := (analyses.filter (fun a => a.issues ≠ [])).length
    let headerParts : List (List Char) :=
      [str "## 🤖 AI Code Review Summary",
       str "*Reviewed " ++ natRepr analyses.length ++ str " files*",
       str ""]
    let anyIssues :=
      0 < severityCount analyses .critical ∨ 0 < severityCount analyses .high ∨
        0 < severityCount analyses .medium ∨ 0 < severityCount analyses .low ∨
        0 < severityCount analyses .info
    let issueParts : List (List Char) :=
      if anyIssues then
        str "### Issues Found" :: severitySummaryLines analyses ++ [str ""]
      else
        [str "### ✅ No Issues Found", str "Great job! The code changes look good.", str ""]
    let fileParts : List (List Char) :=
      if 0 < files_with_issues then
        str "### Files Reviewed" :: analyses.map fileSummaryLine ++ [str ""]
      else []
    let footerParts : List (List Char) :=
      [str "---", str "*This review was generated by NeuraReview AI*"]
    joinNl (headerParts ++ issueParts ++ fileParts ++ footerParts)

/-- The final review payload of `prepare_review_data` (`comment_manager.py:277-286`);
the Python dict's nested `statistics` entries are flattened into fields. -/
structure ReviewData where
  overall_comment : List Char
  comments : List ReviewComment
  total_files : Nat
  files_with_issues : Nat
  total_issues : Nat
  total_comments : Nat
deriving DecidableEq, Repr

/-- `prepare_review_data` (`comment_manager.py:245-286`); the `all_comments`
list the source builds is used only for a log line and is not part of the
result. -/
def prepareReviewData (hash : List Char → Int) (analyses : List ReviewAnalysis)
    (max_comments_per_file : Nat) (min_confidence : ℚ) : ReviewData :=
  let filtered_comments := filterCommentsByConfidence min_confidence analyses
  let deduplicated_comments := deduplicateComments hash filtered_comments
  let limited_comments := limitCommentsPerFile deduplicated_comments max_comments_per_file
  { overall_comment := formatOverallReview analyses,
    comments := limited_comments,
    total_files := analyses.length,
    files_with_issues := (analyses.filter (fun a => a.issues ≠ [])).length,
    total_issues := (analyses.map (fun a => a.issues.length)).sum,
    total_comments := limited_comments.length }

/-! ## Agentic decision loop (`agentic_reviewer.py`)

The model responder and the context tool are external collaborators: the
responder is scripted as a function from the (1-based) iteration number to
an outcome, `err` standing for a raised exception, and tool execution as a
total function producing the (serialized) tool result.  The conversation
message list only feeds the scripted external responder and affects nothing
else, so it is not carried in the loop state. -/

/-- One structured issue record of a finalize payload, with the fields the
`create_review_analysis` function schema declares (`function_schemas.py`). -/
structure IssueRecord where
  title : List Char
  description : List Char
  severity : ReviewSeverity
  change_type : ChangeType
  target_lines : List Int
  suggestion : Option (List Char)
  side : Option (List Char)
deriving DecidableEq, Repr

/-- The finalize payload (`issues`, `overall_assessment`, `context_summary`). -/
structure AnalysisPayload where
  issues : List IssueRecord
  overall_assessment : Option (List Char)
  context_summary : Option (List Char)
deriving DecidableEq, Repr

/-- The parsed `arguments` dict of a function call: a finalize payload or
opaque context-tool arguments. -/
inductive CallArgs where
  | analysisArgs (payload : AnalysisPayload)
  | toolArgs (raw : List Char)
deriving DecidableEq, Repr

/-- A function call in a model response. -/
structure FuncCall where
  name : List Char
  arguments : CallArgs
deriving DecidableEq, Repr

/-- Reading a finalize payload out of `func_call.arguments`; `dict.get` on a
non-payload dict yields the defaults. -/
def payloadOfArgs : CallArgs → AnalysisPayload
  | .analysisArgs p => p
  | .toolArgs _ => { issues := [], overall_assessment := none, context_summary := none }

/-- One responder invocation outcome: a response (optional free text plus
function calls), or a raised exception. -/
inductive ModelStep where
  | ok (content : Option (List Char)) (function_calls : List FuncCall)
  | err
deriving DecidableEq, Repr

/-- One `context_history` entry (`agentic_reviewer.py:127-133`). -/
structure ContextEntry where
  tool : List Char
  args : CallArgs
  result : List Char
deriving DecidableEq, Repr

/-- The name of the finalize capability. -/
def finalizeName : List Char :=
  str "create_review_analysis"

/-- The function-call scan of one iteration (`agentic_reviewer.py:109-150`):
a finalize call captures its payload and stops the scan; otherwise calls run
in order until the per-iteration cap, each appending a context entry. -/
def processCalls (execTool : FuncCall → List Char) (cap : Nat) :
    List FuncCall → Nat → List ContextEntry →
      Option AnalysisPayload × Nat × List ContextEntry
  | [], count, history => (none, count, history)
  | fc :: rest, count, history =>
    if fc.name = finalizeName then (some (payloadOfArgs fc.arguments), count, history)
    else if cap ≤ count then (none, count, history)
    else
      processCalls execTool cap rest (count + 1)
        (history ++ [{ tool := fc.name, args := fc.arguments, result := execTool fc }])

/-- `_create_comment_from_issue` (`agentic_reviewer.py:318-346`); its
`except` arm returning `None` is unreachable in the typed embedding. -/
def createCommentFromIssue (issue : ReviewIssue) (fd : FileDiff) : Option ReviewComment :=
  let badge := severityBadgeMarkdown issue.severity
  let body0 := badge ++ str "\n\n**" ++ issue.title ++ str "**\n\n" ++ issue.description
  let comment_body :=
    match issue.suggestion with
    | some sug =>
      if sug ≠ [] then body0 ++ str "\n\n```suggestion\n" ++ sug ++ str "\n```"
      else body0
    | none => body0
  let side := issue.ai_side.getD (str "RIGHT")
  some { body := comment_body, path := fd.filename, line := issue.line,
         start_line := issue.start_line, side := some side,
         start_side := if issue.start_line ≠ none then some side else none,
         severity := issue.severity }

/-- The `ReviewIssue` built from one issue record
(`agentic_reviewer.py:271-288`), including the post-hoc `_ai_side`. -/
def issueOfRecord (filename : List Char) (rec : IssueRecord) : ReviewIssue :=
  let first_line := listMinInt rec.target_lines
  let last_line := listMaxInt rec.target_lines
  { title := rec.title, description := rec.description, severity := rec.severity,
    file_path := filename,
    line := some last_line,
    start_line := if first_line ≠ last_line then some first_line else none,
    suggestion := rec.suggestion,
    category := str "general",
    change_type := rec.change_type,
    ai_side := some (rec.side.getD (str "RIGHT")) }

/-- The record loop of `_create_review_analysis_from_response`
(`agentic_reviewer.py:261-297`): records without target lines are skipped,
the rest produce an issue and (when comment creation succeeds) a comment. -/
def agenticIssuesAndComments (fd : FileDiff) :
    List IssueRecord → List ReviewIssue × List ReviewComment
  | [] => ([], [])
  | rec :: rest =>
    let tl := agenticIssuesAndComments fd rest
    if rec.target_lines = [] then tl
    else
      let issue := issueOfRecord fd.filename rec
      match createCommentFromIssue issue fd with
      | some comment => (issue :: tl.1, comment :: tl.2)
      | none => (issue :: tl.1, tl.2)

/-- `_create_review_analysis_from_response` (`agentic_reviewer.py:249-316`);
its `except` arm falling back is unreachable in the typed embedding, so the
`context_history` argument is carried only for signature fidelity. -/
def createReviewAnalysisFromResponse (payload : AnalysisPayload) (fd : FileDiff)
    (context_history : List ContextEntry) : ReviewAnalysis :=
  let ic := agenticIssuesAndComments fd payload.issues
  let overall0 := payload.overall_assessment.getD (str "Review for " ++ fd.filename)
  let context_summary := payload.context_summary.getD []
  let overall_comment :=
    if context_summary ≠ [] then
      overall0 ++ str "\n\n**Context Analysis:** " ++ context_summary
    else overall0
  { overall_comment := overall_comment, issues := ic.1, comments := ic.2,
    file_path := fd.filename, confidence := 19/20 }

/-- `_create_fallback_analysis` (`agentic_reviewer.py:361-377`). -/
def createFallbackAnalysis (fd : FileDiff) (context_history : List ContextEntry) :
    ReviewAnalysis :=
  let context_summary :=
    if context_history ≠ [] then
      str "Gathered context from " ++ natRepr context_history.length ++ str " tool calls"
    else str "Limited context analysis"
  { overall_comment := str "Automated review of " ++ fd.filename ++ str ". " ++ context_summary,
    issues := [], comments := [], file_path := fd.filename, confidence := 1/2 }

/-- The `while` loop of `analyze_file` (`agentic_reviewer.py:75-181`),
structurally recursive on the remaining iteration budget; `iteration` is the
1-based iteration number the responder sees.  A response without function
calls only appends steering messages and continues; a responder exception
breaks to the fallback; a captured finalize payload returns immediately. -/
def analyzeGo (cap : Nat) (resp : Nat → ModelStep) (execTool : FuncCall → List Char)
    (fd : FileDiff) : Nat → Nat → List ContextEntry → ReviewAnalysis
  | 0, _, history => createFallbackAnalysis fd history
  | remaining + 1, iteration, history =>
    match resp iteration with
    | .err => createFallbackAnalysis fd history
    | .ok _content calls =>
      if calls = [] then analyzeGo cap resp execTool fd remaining (iteration + 1) history
      else
        match processCalls execTool cap calls 0 history with
        | (some payload, _, history2) => createReviewAnalysisFromResponse payload fd history2
        | (none, _, history2) => analyzeGo cap resp execTool fd remaining (iteration + 1) history2

/-- `AgenticReviewer.analyze_file` (`agentic_reviewer.py:51-181`) with the
constructor configuration (`max_iterations`, `max_context_calls_per_iteration`)
passed explicitly. -/
def analyzeFile (max_iterations cap : Nat) (resp : Nat → ModelStep)
    (execTool : FuncCall → List Char) (fd : FileDiff) : ReviewAnalysis :=
  analyzeGo cap resp execTool fd max_iterations 1 []

/-! ## The `ChangeType` attribute accesses (`models.py`, `comment_manager.py`)

Python `Enum` member access `ChangeType.X` succeeds exactly for declared
member names and raises `AttributeError` otherwise; the lookup is modelled
as a partial map from attribute name to member. -/

/-- Attribute lookup on the `ChangeType` enum class (`models.py:18-25`). -/
def changeTypeAttr (name : List Char) : Option ChangeType :=
  if name = str "BUG" then some .bug
  else if name = str "PERFORMANCE" then some .performance
  else if name = str "SECURITY" then some .security
  else if name = str "MEMORY" then some .memory
  else if name = str "ERROR_HANDLING" then some .error_handling
  else none

/-- The attribute name in the `ReviewIssue` dataclass default
`change_type: ChangeType = ChangeType.OTHER` (`models.py:96`). -/
def reviewIssueDefaultAttr : List Char :=
  str "OTHER"

/-- The attribute names `CommentManager.__init__` reads off `ChangeType` for
its badge table (`comment_manager.py:31-40`), in source order. -/
def commentManagerBadgeAttrs : List (List Char) :=
  [str "BUG", str "SECURITY", str "PERFORMANCE", str "REFACTOR",
   str "STYLE", str "DOCUMENTATION", str "TEST", str "OTHER"]

/-! ## Helper lemmas for the parser claims -/

/-- `[s, s+1, ..., s+n-1]` — the run of line numbers a cursor produces. -/
def intRange (s : Int) : Nat → List Int
  | 0 => []
  | n + 1 => s :: intRange (s + 1) n

theorem intRange_mem {x s : Int} {n : Nat} (h : x ∈ intRange s n) :
    s ≤ x ∧ x < s + n := by
  induction n generalizing s with
  | zero => simp [intRange] at h
  | succ m ih =>
    simp only [intRange, List.mem_cons] at h
    rcases h with rfl | h
    · omega
    · have := ih h
      omega

theorem intRange_pairwise_le (s : Int) (n : Nat) :
    (intRange s n).Pairwise (· ≤ ·) := by
  induction n generalizing s with
  | zero => simp [intRange]
  | succ m ih =>
    simp only [intRange]
    refine List.Pairwise.cons ?_ (ih (s + 1))
    intro x hx
    have := intRange_mem hx
    omega

theorem parseHunkLines_new_nums (os ns : Int) (raws : List RawLine) :
    (parseHunkLines os ns raws).filterMap (fun dl => dl.new_line_number) =
      intRange ns ((raws.filter (fun rl => rl.kind ≠ RawKind.removed)).length) := by
  induction raws generalizing os ns with
  | nil => rfl
  | cons rl rest ih =>
    cases hk : rl.kind with
    | added =>
      simp only [parseHunkLines, hk, List.filterMap_cons, List.filter_cons]
      rw [if_pos (by simp [hk])]
      simp only [List.length_cons, intRange]
      rw [ih os (ns + 1)]
    | removed =>
      simp only [parseHunkLines, hk, List.filterMap_cons, List.filter_cons]
      rw [if_neg (by simp [hk])]
      exact ih (os + 1) ns
    | context =>
      simp only [parseHunkLines, hk, List.filterMap_cons, List.filter_cons]
      rw [if_pos (by simp [hk])]
      simp only [List.length_cons, intRange]
      rw [ih (os + 1) (ns + 1)]

theorem parseHunkLines_old_nums (os ns : Int) (raws : List RawLine) :
    (parseHunkLines os ns raws).filterMap (fun dl => dl.old_line_number) =
      intRange os ((raws.filter (fun rl => rl.kind ≠ RawKind.added)).length) := by
  induction raws generalizing os ns with
  | nil => rfl
  | cons rl rest ih =>
    cases hk : rl.kind with
    | added =>
      simp only [parseHunkLines, hk, List.filterMap_cons, List.filter_cons]
      rw [if_neg (by simp [hk])]
      exact ih os (ns + 1)
    | removed =>
      simp only [parseHunkLines, hk, List.filterMap_cons, List.filter_cons]
      rw [if_pos (by simp [hk])]
      simp only [List.length_cons, intRange]
      rw [ih (os + 1) ns]
    | context =>
      simp only [parseHunkLines, hk, List.filterMap_cons, List.filter_cons]
      rw [if_pos (by simp [hk])]
      simp only [List.length_cons, intRange]
      rw [ih (os + 1) (ns + 1)]

theorem parseHunkLines_shape (os ns : Int) (raws : List RawLine) :
    ∀ dl ∈ parseHunkLines os ns raws,
      (dl.type = LineType.added →
        (∃ n, dl.new_line_number = some n) ∧ dl.old_line_number = none) ∧
      (dl.type = LineType.removed →
        (∃ n, dl.old_line_number = some n) ∧ dl.new_line_number = none) ∧
      (dl.type = LineType.context →
        (∃ n, dl.old_line_number = some n) ∧ ∃ n, dl.new_line_number = some n) := by
  induction raws generalizing os ns with
  | nil => intro dl hdl; simp [parseHunkLines] at hdl
  | cons rl rest ih =>
    intro dl hdl
    cases hk : rl.kind <;>
      · simp only [parseHunkLines, hk, List.mem_cons] at hdl
        rcases hdl with rfl | hdl
        · refine ⟨?_, ?_, ?_⟩ <;> intro ht <;> simp_all
        · exact ih _ _ dl hdl

/-! ## C7 -/

/-- C7: no `ReviewIssue` can be constructed through the declared default:
the `ChangeType` enum defines only BUG, PERFORMANCE, SECURITY, MEMORY and
ERROR_HANDLING, so the dataclass default attribute `ChangeType.OTHER` is an
undefined member (the lookup fails, i.e. evaluating `models.py`'s class
definitions raises `AttributeError`), and exactly the badge-table names
REFACTOR, STYLE, DOCUMENTATION, TEST and OTHER read by
`CommentManager.__init__` are likewise undefined members. -/
theorem claim_C7_undefined_changetype_members :
    changeTypeAttr reviewIssueDefaultAttr = none ∧
      commentManagerBadgeAttrs.filter (fun n => (changeTypeAttr n).isNone) =
        [str "REFACTOR", str "STYLE", str "DOCUMENTATION", str "TEST", str "OTHER"] := by
  constructor
  · rfl
  · rfl

/-! ## C8 -/

/-- C8: `parse_file_diff` is total over every behaviour of the external
diff library (modelled as the `parsePatch` parameter, whose `.error` result
stands for any raised parse exception): an empty patch returns the input
unchanged, a parse failure returns the input unchanged — hence, for inputs
constructed with an empty hunk list (`github_client.py:55`), with exactly
the hunks that parsed successfully, namely none — and in every case the
result is either the unchanged input or the input with the successfully
parsed hunks. -/
theorem claim_C8_parse_never_fails
    (parsePatch : List Char → Except Unit (List (List RawHunk))) (fd : FileDiff) :
    (fd.patch = [] → parseFileDiff parsePatch fd = fd) ∧
    (∀ e, parsePatch (ensurePatchHeaders fd.patch fd.filename) = .error e →
      parseFileDiff parsePatch fd = fd) ∧
    (fd.patch = [] → fd.hunks = [] → (parseFileDiff parsePatch fd).hunks = []) ∧
    (∀ e, parsePatch (ensurePatchHeaders fd.patch fd.filename) = .error e →
      fd.hunks = [] → (parseFileDiff parsePatch fd).hunks = []) ∧
    (parseFileDiff parsePatch fd = fd ∨
      ∃ patchSet, parsePatch (ensurePatchHeaders fd.patch fd.filename) = .ok patchSet ∧
        (parseFileDiff parsePatch fd).hunks =
          (patchSet.map (fun pf => pf.map parseHunk)).flatten) := by
  refine ⟨?_, ?_, ?_, ?_, ?_⟩
  · intro h
    simp [parseFileDiff, h]
  · intro e he
    by_cases hp : fd.patch = []
    · simp [parseFileDiff, hp]
    · simp [parseFileDiff, hp, he]
  · intro h hh
    simp [parseFileDiff, h, hh]
  · intro e he hh
    by_cases hp : fd.patch = []
    · simp [parseFileDiff, hp, hh]
    · simp [parseFileDiff, hp, he, hh]
  · by_cases hp : fd.patch = []
    · left; simp [parseFileDiff, hp]
    · cases he : parsePatch (ensurePatchHeaders fd.patch fd.filename) with
      | error e => left; simp [parseFileDiff, hp, he]
      | ok patchSet =>
        by_cases hps : patchSet = []
        · left; simp [parseFileDiff, hp, he, hps]
        · right
          exact ⟨patchSet, rfl, by simp [parseFileDiff, hp, he, hps]⟩

/-- Demonstration input for C8: an `.ok` parse of one file with one raw
hunk, applied to a file diff with a non-empty patch and no hunks. -/
def demoRawHunk : RawHunk :=
  { source_start := 1, source_length := 2, target_start := 1, target_length := 2,
    lines := [{ kind := .context, value := str "a\n" }, { kind := .added, value := str "b\n" }],
    header := str "@@ -1,2 +1,2 @@" }

/-- Demonstration `FileDiff` inputs for the C8 witness. -/
def demoFdEmptyPatch : FileDiff :=
  { filename := str "demo.py", old_filename := none, status := str "modified",
    hunks := [], patch := [], additions := 1, deletions := 0 }

theorem claim_C8_witness :
    demoFdEmptyPatch.patch = [] ∧ demoFdEmptyPatch.hunks = [] ∧
      parseFileDiff (fun _ => .error ()) demoFdEmptyPatch = demoFdEmptyPatch ∧
      (parseFileDiff (fun _ => .error ()) demoFdEmptyPatch).hunks = [] :=
  ⟨rfl, rfl,
    (claim_C8_parse_never_fails (fun _ => .error ()) demoFdEmptyPatch).1 rfl,
    (claim_C8_parse_never_fails (fun _ => .error ()) demoFdEmptyPatch).2.2.1 rfl rfl⟩

/-! ## C6 -/

/-- C6: every `DiffLine` the parser produces satisfies the dual-numbering
invariant (Added: new set / old unset; Removed: old set / new unset;
Context: both set); per side, the emitted numbers are exactly the
consecutive run starting at the hunk's old/new start cursor (hence
monotonically non-decreasing), and they are 1-based whenever the cursors
are. -/
theorem claim_C6_dual_numbering (os ns : Int) (raws : List RawLine)
    (h1 : 1 ≤ os) (h2 : 1 ≤ ns) :
    (∀ dl ∈ parseHunkLines os ns raws,
      (dl.type = LineType.added →
        (∃ n, dl.new_line_number = some n) ∧ dl.old_line_number = none) ∧
      (dl.type = LineType.removed →
        (∃ n, dl.old_line_number = some n) ∧ dl.new_line_number = none) ∧
      (dl.type = LineType.context →
        (∃ n, dl.old_line_number = some n) ∧ ∃ n, dl.new_line_number = some n)) ∧
    (parseHunkLines os ns raws).filterMap (fun dl => dl.new_line_number) =
      intRange ns ((raws.filter (fun rl => rl.kind ≠ RawKind.removed)).length) ∧
    (parseHunkLines os ns raws).filterMap (fun dl => dl.old_line_number) =
      intRange os ((raws.filter (fun rl => rl.kind ≠ RawKind.added)).length) ∧
    ((parseHunkLines os ns raws).filterMap (fun dl => dl.new_line_number)).Pairwise (· ≤ ·) ∧
    ((parseHunkLines os ns raws).filterMap (fun dl => dl.old_line_number)).Pairwise (· ≤ ·) ∧
    (∀ dl ∈ parseHunkLines os ns raws, ∀ n : Int,
      (dl.old_line_number = some n ∨ dl.new_line_number = some n) → 1 ≤ n) := by
  refine ⟨parseHunkLines_shape os ns raws, parseHunkLines_new_nums os ns raws,
    parseHunkLines_old_nums os ns raws, ?_, ?_, ?_⟩
  · rw [parseHunkLines_new_nums os ns raws]
    exact intRange_pairwise_le _ _
  · rw [parseHunkLines_old_nums os ns raws]
    exact intRange_pairwise_le _ _
  · intro dl hdl n hn
    rcases hn with hn | hn
    · have hmem : n ∈ (parseHunkLines os ns raws).filterMap (fun dl => dl.old_line_number) :=
        List.mem_filterMap.mpr ⟨dl, hdl, hn⟩
      rw [parseHunkLines_old_nums os ns raws] at hmem
      have := intRange_mem hmem
      omega
    · have hmem : n ∈ (parseHunkLines os ns raws).filterMap (fun dl => dl.new_line_number) :=
        List.mem_filterMap.mpr ⟨dl, hdl, hn⟩
      rw [parseHunkLines_new_nums os ns raws] at hmem
      have := intRange_mem hmem
      omega

/-- Demonstration raw hunk body for the C6 witness: one context line, one
added line, one removed line. -/
def demoRaws : List RawLine :=
  [{ kind := .context, value := str "a\n" },
   { kind := .added, value := str "b\n" },
   { kind := .removed, value := str "c\n" }]

theorem claim_C6_witness :
    (1 ≤ (3 : Int)) ∧ (1 ≤ (5 : Int)) ∧
      (parseHunkLines 3 5 demoRaws).filterMap (fun dl => dl.new_line_number) =
        intRange 5 2 ∧
      (parseHunkLines 3 5 demoRaws).filterMap (fun dl => dl.old_line_number) =
        intRange 3 2 :=
  ⟨by decide, by decide,
    (claim_C6_dual_numbering 3 5 demoRaws (by decide) (by decide)).2.1,
    (claim_C6_dual_numbering 3 5 demoRaws (by decide) (by decide)).2.2.1⟩

/-! ## Helper lemmas for `min`/`max` over non-empty lists -/

theorem foldl_max_spec (l : List Int) :
    ∀ a : Int, a ≤ l.foldl max a ∧ (∀ x ∈ l, x ≤ l.foldl max a) ∧
      (l.foldl max a = a ∨ l.foldl max a ∈ l) := by
  induction l with
  | nil => intro a; exact ⟨le_refl a, by simp, Or.inl rfl⟩
  | cons z zs ih =>
    intro a
    obtain ⟨h1, h2, h3⟩ := ih (max a z)
    refine ⟨le_trans (le_max_left a z) h1, ?_, ?_⟩
    · intro x hx
      rcases List.mem_cons.mp hx with rfl | hx
      · exact le_trans (le_max_right a x) h1
      · exact h2 x hx
    · rcases h3 with h3 | h3
      · rcases max_choice a z with hm | hm
        · exact Or.inl (by rw [List.foldl_cons, h3, hm])
        · exact Or.inr (by rw [List.foldl_cons, h3, hm]; simp)
      · exact Or.inr (by simp only [List.foldl_cons]; exact List.mem_cons_of_mem z h3)

theorem foldl_min_spec (l : List Int) :
    ∀ a : Int, l.foldl min a ≤ a ∧ (∀ x ∈ l, l.foldl min a ≤ x) ∧
      (l.foldl min a = a ∨ l.foldl min a ∈ l) := by
  induction l with
  | nil => intro a; exact ⟨le_refl a, by simp, Or.inl rfl⟩
  | cons z zs ih =>
    intro a
    obtain ⟨h1, h2, h3⟩ := ih (min a z)
    refine ⟨le_trans h1 (min_le_left a z), ?_, ?_⟩
    · intro x hx
      rcases List.mem_cons.mp hx with rfl | hx
      · exact le_trans h1 (min_le_right a x)
      · exact h2 x hx
    · rcases h3 with h3 | h3
      · rcases min_choice a z with hm | hm
        · exact Or.inl (by rw [List.foldl_cons, h3, hm])
        · exact Or.inr (by rw [List.foldl_cons, h3, hm]; simp)
      · exact Or.inr (by simp only [List.foldl_cons]; exact List.mem_cons_of_mem z h3)

theorem listMaxInt_spec (l : List Int) (h : l ≠ []) :
    listMaxInt l ∈ l ∧ ∀ x ∈ l, x ≤ listMaxInt l := by
  cases l with
  | nil => exact absurd rfl h
  | cons x xs =>
    obtain ⟨h1, h2, h3⟩ := foldl_max_spec xs x
    refine ⟨?_, ?_⟩
    · rcases h3 with h3 | h3
      · rw [listMaxInt, h3]; simp
      · exact List.mem_cons_of_mem x h3
    · intro y hy
      rcases List.mem_cons.mp hy with rfl | hy
      · exact h1
      · exact h2 y hy

theorem listMinInt_spec (l : List Int) (h : l ≠ []) :
    listMinInt l ∈ l ∧ ∀ x ∈ l, listMinInt l ≤ x := by
  cases l with
  | nil => exact absurd rfl h
  | cons x xs =>
    obtain ⟨h1, h2, h3⟩ := foldl_min_spec xs x
    refine ⟨?_, ?_⟩
    · rcases h3 with h3 | h3
      · rw [listMinInt, h3]; simp
      · exact List.mem_cons_of_mem x h3
    · intro y hy
      rcases List.mem_cons.mp hy with rfl | hy
      · exact h1
      · exact h2 y hy

/-! ## C5 -/

theorem agenticIssues_fst (fd : FileDiff) (records : List IssueRecord) :
    (agenticIssuesAndComments fd records).1 =
      records.filterMap (fun rec =>
        if rec.target_lines = [] then none else some (issueOfRecord fd.filename rec)) := by
  induction records with
  | nil => rfl
  | cons rec rest ih =>
    simp only [agenticIssuesAndComments, List.filterMap_cons]
    by_cases h : rec.target_lines = []
    · simp only [if_pos h]
      exact ih
    · simp only [if_neg h, createCommentFromIssue]
      simpa using ih

/-- C5: in the agentic finalize path, one Finding is produced per issue
record exactly when the record's target-line list is non-empty; the
produced issue's anchor `line` is the maximum of the target lines and its
`start_line` is the minimum when that differs from the maximum, unset
otherwise. -/
theorem claim_C5_anchor_min_max (payload : AnalysisPayload) (fd : FileDiff)
    (history : List ContextEntry) :
    (createReviewAnalysisFromResponse payload fd history).issues =
      payload.issues.filterMap (fun rec =>
        if rec.target_lines = [] then none else some (issueOfRecord fd.filename rec)) ∧
    (∀ rec : IssueRecord, rec.target_lines ≠ [] →
      ∃ mx, (issueOfRecord fd.filename rec).line = some mx ∧ mx ∈ rec.target_lines ∧
        (∀ x ∈ rec.target_lines, x ≤ mx) ∧
        ((issueOfRecord fd.filename rec).start_line = none →
          ∀ x ∈ rec.target_lines, x = mx) ∧
        (∀ mn, (issueOfRecord fd.filename rec).start_line = some mn →
          mn ∈ rec.target_lines ∧ (∀ x ∈ rec.target_lines, mn ≤ x) ∧ mn ≠ mx)) := by
  constructor
  · simp only [createReviewAnalysisFromResponse]
    exact agenticIssues_fst fd payload.issues
  · intro rec hne
    obtain ⟨hmaxmem, hmaxub⟩ := listMaxInt_spec rec.target_lines hne
    obtain ⟨hminmem, hminlb⟩ := listMinInt_spec rec.target_lines hne
    refine ⟨listMaxInt rec.target_lines, rfl, hmaxmem, hmaxub, ?_, ?_⟩
    · intro hnone x hx
      simp only [issueOfRecord] at hnone
      by_cases heq : listMinInt rec.target_lines ≠ listMaxInt rec.target_lines
      · rw [if_pos heq] at hnone
        exact absurd hnone (by simp)
      · push_neg at heq
        exact le_antisymm (hmaxub x hx) (heq ▸ hminlb x hx)
    · intro mn hsome
      simp only [issueOfRecord] at hsome
      by_cases heq : listMinInt rec.target_lines ≠ listMaxInt rec.target_lines
      · rw [if_pos heq] at hsome
        have : mn = listMinInt rec.target_lines := by
          simpa using hsome.symm
        subst this
        exact ⟨hminmem, hminlb, heq⟩
      · rw [if_neg heq] at hsome
        exact absurd hsome (by simp)

/-- Demonstration issue record for the C5 witness. -/
def demoRecord : IssueRecord :=
  { title := str "t", description := str "d", severity := .high,
    change_type := .bug, target_lines := [3, 7, 5], suggestion := none, side := none }

/-- Demonstration finalize payload. -/
def demoPayload : AnalysisPayload :=
  { issues := [demoRecord], overall_assessment := some (str "ok"), context_summary := none }

/-- Demonstration `FileDiff`. -/
def demoFd : FileDiff :=
  { filename := str "demo.py", old_filename := none, status := str "modified",
    hunks := [], patch := str "@@", additions := 0, deletions := 0 }

theorem claim_C5_witness :
    demoRecord.target_lines ≠ [] ∧
      (∃ mx, (issueOfRecord demoFd.filename demoRecord).line = some mx ∧
        mx ∈ demoRecord.target_lines ∧
        (∀ x ∈ demoRecord.target_lines, x ≤ mx) ∧
        ((issueOfRecord demoFd.filename demoRecord).start_line = none →
          ∀ x ∈ demoRecord.target_lines, x = mx) ∧
        (∀ mn, (issueOfRecord demoFd.filename demoRecord).start_line = some mn →
          mn ∈ demoRecord.target_lines ∧ (∀ x ∈ demoRecord.target_lines, mn ≤ x) ∧ mn ≠ mx)) :=
  ⟨by decide, (claim_C5_anchor_min_max demoPayload demoFd []).2 demoRecord (by decide)⟩

/-! ## C4 -/

/-- A responder outcome that does not invoke the finalize capability
(an exception trivially does not). -/
def stepNoFinalize : ModelStep → Bool
  | .ok _ calls => calls.all (fun fc => decide (fc.name ≠ finalizeName))
  | .err => true

theorem processCalls_no_finalize (execTool : FuncCall → List Char) (cap : Nat) :
    ∀ (calls : List FuncCall), (∀ fc ∈ calls, fc.name ≠ finalizeName) →
      ∀ count history, (processCalls execTool cap calls count history).1 = none := by
  intro calls
  induction calls with
  | nil => intro _ count history; rfl
  | cons fc rest ih =>
    intro h count history
    have hfc : fc.name ≠ finalizeName := h fc (by simp)
    simp only [processCalls, if_neg hfc]
    by_cases hcap : cap ≤ count
    · rw [if_pos hcap]
    · rw [if_neg hcap]
      exact ih (fun g hg => h g (List.mem_cons_of_mem fc hg)) _ _

theorem analyzeGo_never_finalize (cap : Nat) (resp : Nat → ModelStep)
    (execTool : FuncCall → List Char) (fd : FileDiff)
    (hnf : ∀ i, stepNoFinalize (resp i) = true) :
    ∀ (remaining iteration : Nat) (history : List ContextEntry), ∃ h2,
      analyzeGo cap resp execTool fd remaining iteration history =
        createFallbackAnalysis fd h2 := by
  intro remaining
  induction remaining with
  | zero => intro iteration history; exact ⟨history, rfl⟩
  | succ r ih =>
    intro iteration history
    cases hstep : resp iteration with
    | err => exact ⟨history, by simp [analyzeGo, hstep]⟩
    | ok content calls =>
      have hcalls : ∀ fc ∈ calls, fc.name ≠ finalizeName := by
        have := hnf iteration
        rw [hstep] at this
        simp only [stepNoFinalize, List.all_eq_true, decide_eq_true_eq] at this
        exact this
      by_cases hempty : calls = []
      · obtain ⟨h2, hh⟩ := ih (iteration + 1) history
        exact ⟨h2, by simp only [analyzeGo, hstep, if_pos hempty]; exact hh⟩
      · have hfst := processCalls_no_finalize execTool cap calls hcalls 0 history
        obtain ⟨h2, hh⟩ :=
          ih (iteration + 1) (processCalls execTool cap calls 0 history).2.2
        refine ⟨h2, ?_⟩
        simp only [analyzeGo, hstep, if_neg hempty]
        cases hP : processCalls execTool cap calls 0 history with
        | mk fst snd =>
          rw [hP] at hfst
          cases snd with
          | mk cnt hist2 =>
            simp only at hfst
            subst hfst
            rw [hP] at hh
            exact hh

theorem analyzeGo_resp_congr (cap : Nat) (resp resp' : Nat → ModelStep)
    (execTool : FuncCall → List Char) (fd : FileDiff) :
    ∀ (remaining iteration : Nat) (history : List ContextEntry),
      (∀ i, iteration ≤ i → i < iteration + remaining → resp' i = resp i) →
      analyzeGo cap resp' execTool fd remaining iteration history =
        analyzeGo cap resp execTool fd remaining iteration history := by
  intro remaining
  induction remaining with
  | zero => intro iteration history _; rfl
  | succ r ih =>
    intro iteration history hagree
    have hstep : resp' iteration = resp iteration :=
      hagree iteration (le_refl _) (by omega)
    have hshift : ∀ i, iteration + 1 ≤ i → i < (iteration + 1) + r → resp' i = resp i := by
      intro i hi1 hi2
      exact hagree i (by omega) (by omega)
    simp only [analyzeGo, hstep]
    cases resp iteration with
    | err => rfl
    | ok content calls =>
      dsimp only
      by_cases hempty : calls = []
      · rw [if_pos hempty, if_pos hempty]
        exact ih (iteration + 1) history hshift
      · rw [if_neg hempty, if_neg hempty]
        cases processCalls execTool cap calls 0 history with
        | mk fst snd =>
          cases snd with
          | mk cnt hist2 =>
            cases fst with
            | some payload => rfl
            | none => exact ih (iteration + 1) hist2 hshift

/-- C4 (amended): if the responder never invokes the finalize capability,
the loop terminates in the fallback outcome: zero findings, zero comments,
confidence 0.5, and the fallback note (which names the number of gathered
context calls when at least one was gathered, and reads "Limited context
analysis" when none were — see `createFallbackAnalysis`); the run consumes
exactly the first `max_iterations` responder outcomes: any responder
agreeing on iterations 1..`max_iterations` produces the identical result. -/
theorem claim_C4_fallback_after_exhaustion (max_iterations cap : Nat)
    (resp : Nat → ModelStep) (execTool : FuncCall → List Char) (fd : FileDiff)
    (hnf : ∀ i, stepNoFinalize (resp i) = true) :
    (∃ h2, analyzeFile max_iterations cap resp execTool fd =
      createFallbackAnalysis fd h2) ∧
    (analyzeFile max_iterations cap resp execTool fd).issues = [] ∧
    (analyzeFile max_iterations cap resp execTool fd).comments = [] ∧
    (analyzeFile max_iterations cap resp execTool fd).confidence = 1/2 ∧
    (∀ resp' : Nat → ModelStep,
      (∀ i, 1 ≤ i → i ≤ max_iterations → resp' i = resp i) →
      analyzeFile max_iterations cap resp' execTool fd =
        analyzeFile max_iterations cap resp execTool fd) := by
  obtain ⟨h2, hh⟩ := analyzeGo_never_finalize cap resp execTool fd hnf max_iterations 1 []
  have hh' : analyzeFile max_iterations cap resp execTool fd = createFallbackAnalysis fd h2 := hh
  refine ⟨⟨h2, hh'⟩, ?_, ?_, ?_, ?_⟩
  · rw [hh']; rfl
  · rw [hh']; rfl
  · rw [hh']; rfl
  · intro resp' hagree
    exact analyzeGo_resp_congr cap resp resp' execTool fd max_iterations 1 []
      (fun i hi1 hi2 => hagree i hi1 (by omega))

theorem claim_C4_witness :
    (∀ i : Nat, stepNoFinalize ((fun _ => ModelStep.ok none []) i) = true) ∧
      (analyzeFile 2 3 (fun _ => ModelStep.ok none []) (fun _ => []) demoFd).confidence = 1/2 :=
  ⟨fun _ => rfl,
    (claim_C4_fallback_after_exhaustion 2 3 (fun _ => ModelStep.ok none [])
      (fun _ => []) demoFd (fun _ => rfl)).2.2.2.1⟩

/-- C4 counterexample: with a responder that never makes tool calls and
never finalizes, the fallback note does not name how many context calls
were gathered (the count zero): it is the generic "Limited context
analysis" text, not "Gathered context from 0 tool calls". -/
theorem claim_C4_counterexample :
    (analyzeFile 2 3 (fun _ => ModelStep.ok none []) (fun _ => []) demoFd).overall_comment =
      str "Automated review of demo.py. Limited context analysis" ∧
    (analyzeFile 2 3 (fun _ => ModelStep.ok none []) (fun _ => []) demoFd).overall_comment ≠
      str "Automated review of demo.py. Gathered context from 0 tool calls" ∧
    (analyzeFile 2 3 (fun _ => ModelStep.ok none []) (fun _ => []) demoFd).confidence = 1/2 :=
  ⟨rfl, by decide, rfl⟩

/-! ## C3 -/

theorem processCalls_finalize (execTool : FuncCall → List Char) (cap : Nat)
    (payload : AnalysisPayload) (post : List FuncCall) :
    ∀ (pre : List FuncCall) (count : Nat) (history : List ContextEntry),
      (∀ fc ∈ pre, fc.name ≠ finalizeName) → count + pre.length ≤ cap →
      processCalls execTool cap
        (pre ++ { name := finalizeName, arguments := CallArgs.analysisArgs payload } :: post)
        count history =
        (some payload, count + pre.length,
          history ++ pre.map (fun fc =>
            { tool := fc.name, args := fc.arguments, result := execTool fc })) := by
  intro pre
  induction pre with
  | nil =>
    intro count history _ _
    simp only [List.nil_append, processCalls, if_pos rfl, payloadOfArgs]
    simp
  | cons fc pre' ih =>
    intro count history h hcap
    have hfc : fc.name ≠ finalizeName := h fc (by simp)
    have hcount : ¬ cap ≤ count := by
      simp only [List.length_cons] at hcap
      omega
    rw [List.cons_append]
    simp only [processCalls, if_neg hfc, if_neg hcount]
    rw [ih (count + 1) _ (fun g hg => h g (List.mem_cons_of_mem fc hg))
      (by simp only [List.length_cons] at hcap ⊢; omega)]
    refine congrArg₂ Prod.mk rfl (congrArg₂ Prod.mk (by simp; omega) ?_)
    simp

/-- C3 (amended): a finalize invocation in a response is honoured — the
payload is converted and the loop returns immediately, ignoring every
later invocation in the same response and every later responder outcome —
exactly when at most `maxToolCallsPerIteration` tool invocations precede
it; a finalize invocation preceded by more than the cap is never reached
(the scan breaks at the cap) and is ignored. -/
theorem claim_C3_finalize_returns_immediately (max_iterations cap : Nat)
    (resp : Nat → ModelStep) (execTool : FuncCall → List Char) (fd : FileDiff)
    (c : Option (List Char)) (payload : AnalysisPayload) (pre post : List FuncCall)
    (hmax : 1 ≤ max_iterations)
    (h1 : resp 1 = ModelStep.ok c
      (pre ++ { name := finalizeName, arguments := CallArgs.analysisArgs payload } :: post))
    (hpre : ∀ fc ∈ pre, fc.name ≠ finalizeName)
    (hlen : pre.length ≤ cap) :
    analyzeFile max_iterations cap resp execTool fd =
      createReviewAnalysisFromResponse payload fd
        (pre.map (fun fc =>
          { tool := fc.name, args := fc.arguments, result := execTool fc })) := by
  cases max_iterations with
  | zero => omega
  | succ m =>
    rw [analyzeFile]
    simp only [analyzeGo, h1]
    rw [if_neg (by simp)]
    rw [processCalls_finalize execTool cap payload post pre 0 [] hpre (by omega)]
    simp

/-- Tool call used by the C3 demonstrations. -/
def demoToolCall : FuncCall :=
  { name := str "search_codebase", arguments := CallArgs.toolArgs (str "query") }

/-- Finalize invocation carrying the demonstration payload. -/
def demoFinalizeCall : FuncCall :=
  { name := finalizeName, arguments := CallArgs.analysisArgs demoPayload }

/-- A responder whose single response puts four tool calls before the
finalize invocation — one more than the default per-iteration cap. -/
def respOverCap : Nat → ModelStep :=
  fun _ => ModelStep.ok none
    [demoToolCall, demoToolCall, demoToolCall, demoToolCall, demoFinalizeCall]

theorem claim_C3_witness :
    ((fun _ => ModelStep.ok none [demoToolCall, demoFinalizeCall] : Nat → ModelStep) 1 =
      ModelStep.ok none
        ([demoToolCall] ++
          { name := finalizeName, arguments := CallArgs.analysisArgs demoPayload } :: []) ∧
      (∀ fc ∈ [demoToolCall], fc.name ≠ finalizeName) ∧
      ([demoToolCall] : List FuncCall).length ≤ 3) ∧
    analyzeFile 5 3 (fun _ => ModelStep.ok none [demoToolCall, demoFinalizeCall])
        (fun _ => str "ok") demoFd =
      createReviewAnalysisFromResponse demoPayload demoFd
        ([demoToolCall].map (fun fc =>
          { tool := fc.name, args := fc.arguments, result := (fun _ => str "ok") fc })) :=
  ⟨⟨by decide, by decide, by decide⟩,
    claim_C3_finalize_returns_immediately 5 3
      (fun _ => ModelStep.ok none [demoToolCall, demoFinalizeCall])
      (fun _ => str "ok") demoFd none demoPayload [demoToolCall] [] (by omega)
      (by decide) (by decide) (by decide)⟩

/-- C3 counterexample: with the default per-iteration cap 3, a response
whose finalize invocation is preceded by four tool invocations is not
honoured: the scan breaks at the cap before reaching it, the iteration
budget (here 1) runs out, and the loop falls back (confidence 0.5) instead
of returning the converted payload (confidence 0.95). -/
theorem claim_C3_counterexample :
    respOverCap 1 = ModelStep.ok none
      [demoToolCall, demoToolCall, demoToolCall, demoToolCall, demoFinalizeCall] ∧
    demoFinalizeCall.name = finalizeName ∧
    (analyzeFile 1 3 respOverCap (fun _ => str "ok") demoFd).confidence = 1/2 ∧
    (analyzeFile 1 3 respOverCap (fun _ => str "ok") demoFd).overall_comment =
      str "Automated review of demo.py. Gathered context from 3 tool calls" ∧
    (createReviewAnalysisFromResponse demoPayload demoFd []).confidence = 19/20 ∧
    ((1 : ℚ)/2) ≠ 19/20 :=
  ⟨rfl, rfl, rfl, rfl, rfl, by norm_num⟩

/-! ## C9 -/

theorem insertByKey_mem (key : α → Int) (a : α) (l : List α) (x : α) :
    x ∈ insertByKey key a l ↔ x = a ∨ x ∈ l := by
  induction l with
  | nil => simp [insertByKey]
  | cons b bs ih =>
    by_cases h : key b < key a
    · simp only [insertByKey, if_pos h, List.mem_cons, ih]
      tauto
    · simp only [insertByKey, if_neg h, List.mem_cons]

theorem insertByKey_pairwise (key : α → Int) (a : α) (l : List α)
    (h : l.Pairwise (fun x y => key x ≤ key y)) :
    (insertByKey key a l).Pairwise (fun x y => key x ≤ key y) := by
  induction l with
  | nil => simp [insertByKey]
  | cons b bs ih =>
    rcases List.pairwise_cons.mp h with ⟨hb, hbs⟩
    by_cases hlt : key b < key a
    · simp only [insertByKey, if_pos hlt]
      refine List.Pairwise.cons ?_ (ih hbs)
      intro x hx
      rcases (insertByKey_mem key a bs x).mp hx with rfl | hx
      · exact le_of_lt hlt
      · exact hb x hx
    · simp only [insertByKey, if_neg hlt]
      refine List.Pairwise.cons ?_ h
      intro x hx
      rcases List.mem_cons.mp hx with rfl | hx
      · exact le_of_not_lt hlt
      · exact le_trans (le_of_not_lt hlt) (hb x hx)

theorem sortByKey_pairwise (key : α → Int) (l : List α) :
    (sortByKey key l).Pairwise (fun x y => key x ≤ key y) := by
  induction l with
  | nil => simp [sortByKey]
  | cons a rest ih => exact insertByKey_pairwise key a _ ih

theorem insertByKey_filter_eq (key : α → Int) (k : Int) (a : α) (l : List α)
    (hsorted : l.Pairwise (fun x y => key x ≤ key y)) :
    (insertByKey key a l).filter (fun x => decide (key x = k)) =
      if key a = k then a :: l.filter (fun x => decide (key x = k))
      else l.filter (fun x => decide (key x = k)) := by
  induction l with
  | nil =>
    by_cases h : key a = k <;> simp [insertByKey, h]
  | cons b bs ih =>
    rcases List.pairwise_cons.mp hsorted with ⟨hb, hbs⟩
    by_cases hlt : key b < key a
    · simp only [insertByKey, if_pos hlt]
      by_cases hak : key a = k
      · have hbk : ¬ (key b = k) := by omega
        rw [if_pos hak]
        simp only [List.filter_cons, decide_eq_true_eq, if_neg hbk]
        rw [ih hbs, if_pos hak]
      · rw [if_neg hak]
        simp only [List.filter_cons, decide_eq_true_eq]
        rw [ih hbs, if_neg hak]
    · simp only [insertByKey, if_neg hlt]
      by_cases hak : key a = k
      · rw [if_pos hak]
        simp only [List.filter_cons, decide_eq_true_eq, if_pos hak]
      · rw [if_neg hak]
        simp only [List.filter_cons, decide_eq_true_eq, if_neg hak]

theorem sortByKey_filter_eq (key : α → Int) (k : Int) (l : List α) :
    (sortByKey key l).filter (fun x => decide (key x = k)) =
      l.filter (fun x => decide (key x = k)) := by
  induction l with
  | nil => rfl
  | cons a rest ih =>
    simp only [sortByKey]
    rw [insertByKey_filter_eq key k a _ (sortByKey_pairwise key rest), ih]
    by_cases hak : key a = k
    · rw [if_pos hak]
      simp [List.filter_cons, hak]
    · rw [if_neg hak]
      simp [List.filter_cons, hak]

theorem limitGo_sublist (max_per_file : Nat) :
    ∀ (counts : List Char → Nat) (l : List ReviewComment),
      List.Sublist (limitGo max_per_file counts l) l := by
  intro counts l
  induction l generalizing counts with
  | nil => exact List.Sublist.refl []
  | cons c rest ih =>
    simp only [limitGo]
    by_cases h : counts c.path < max_per_file
    · rw [if_pos h]
      exact List.Sublist.cons₂ c (ih _)
    · rw [if_neg h]
      exact List.Sublist.cons c (ih _)

/-- C9 (amended): the final payload's comment order is deterministic — a
pure function of the input outcome sequence — but it is not the input
order: survivors appear sorted by severity rank (critical < high < medium
< low < info), and only among comments of equal severity is the input
relative order preserved (the capped output is, severity class by severity
class, a sublist of the deduplicated, confidence-filtered input). -/
theorem claim_C9_severity_sorted_output (hash : List Char → Int)
    (analyses : List ReviewAnalysis) (max_comments_per_file : Nat)
    (min_confidence : ℚ) :
    (prepareReviewData hash analyses max_comments_per_file min_confidence).comments.Pairwise
      (fun a b => severityRank a.severity ≤ severityRank b.severity) ∧
    List.Sublist
      (prepareReviewData hash analyses max_comments_per_file min_confidence).comments
      (sortByKey commentSeverityKey
        (deduplicateComments hash (filterCommentsByConfidence min_confidence analyses))) ∧
    (∀ k : Int,
      List.Sublist
        ((prepareReviewData hash analyses max_comments_per_file min_confidence).comments.filter
          (fun c => decide (commentSeverityKey c = k)))
        ((deduplicateComments hash (filterCommentsByConfidence min_confidence analyses)).filter
          (fun c => decide (commentSeverityKey c = k)))) := by
  have hout : (prepareReviewData hash analyses max_comments_per_file min_confidence).comments =
      limitGo max_comments_per_file (fun _ => 0)
        (sortByKey commentSeverityKey
          (deduplicateComments hash (filterCommentsByConfidence min_confidence analyses))) := rfl
  rw [hout]
  refine ⟨?_, ?_, ?_⟩
  · exact (sortByKey_pairwise commentSeverityKey _).sublist (limitGo_sublist _ _ _)
  · exact limitGo_sublist _ _ _
  · intro k
    have h1 := (limitGo_sublist max_comments_per_file (fun _ => 0)
      (sortByKey commentSeverityKey
        (deduplicateComments hash (filterCommentsByConfidence min_confidence analyses)))).filter
      (fun c => decide (commentSeverityKey c = k))
    rw [sortByKey_filter_eq] at h1
    exact h1

/-- A low-severity comment appearing first in the input. -/
def demoLowComment : ReviewComment :=
  { body := str "b1", path := str "a.py", line := some 1, start_line := none,
    side := some (str "RIGHT"), start_side := none, severity := .low }

/-- A critical comment appearing second in the input. -/
def demoCritComment : ReviewComment :=
  { body := str "b2", path := str "b.py", line := some 2, start_line := none,
    side := some (str "RIGHT"), start_side := none, severity := .critical }

/-- An outcome carrying the two comments in input order [low, critical]. -/
def demoAnalysisOrder : ReviewAnalysis :=
  { overall_comment := [], issues := [], comments := [demoLowComment, demoCritComment],
    file_path := str "a.py", confidence := 1 }

/-- C9 counterexample: two surviving comments of different severities leave
the Aggregator in severity order [critical, low], not in their input
relative order [low, critical]. -/
theorem claim_C9_counterexample :
    filterCommentsByConfidence (7/10) [demoAnalysisOrder] =
      [demoLowComment, demoCritComment] ∧
    (prepareReviewData (fun _ => 0) [demoAnalysisOrder] 10 (7/10)).comments =
      [demoCritComment, demoLowComment] ∧
    ([demoCritComment, demoLowComment] : List ReviewComment) ≠
      [demoLowComment, demoCritComment] := by
  have hconf : (7 : ℚ)/10 ≤ demoAnalysisOrder.confidence := by
    norm_num [demoAnalysisOrder]
  have hfil : filterCommentsByConfidence (7/10) [demoAnalysisOrder] =
      [demoLowComment, demoCritComment] := by
    simp only [filterCommentsByConfidence, if_pos hconf]
    rfl
  refine ⟨hfil, ?_, by decide⟩
  have hout : (prepareReviewData (fun _ => 0) [demoAnalysisOrder] 10 (7/10)).comments =
      limitGo 10 (fun _ => 0) (sortByKey commentSeverityKey
        (deduplicateComments (fun _ => 0)
          (filterCommentsByConfidence (7/10) [demoAnalysisOrder]))) := rfl
  rw [hout, hfil]
  decide

/-! ## C1 -/

theorem fallbackSelection_no_range (dls : List DiffLine) :
    (fallbackSelection dls).1 = none ∧ (fallbackSelection dls).2.2.2.1 = none := by
  unfold fallbackSelection
  split <;> exact ⟨rfl, rfl⟩

theorem selectAnchor_added_branch (dls : List DiffLine) (s e : Int)
    (h : longestConsecutiveRange (addedNumsOf dls) = some (s, e))
    (hc : max 1 (rangeLength (longestConsecutiveRange (removedNumsOf dls))) ≤ e - s) :
    (selectAnchor dls).1 = some s ∧ (selectAnchor dls).2.1 = some e ∧
      (selectAnchor dls).2.2.1 = str "RIGHT" ∧
      (selectAnchor dls).2.2.2.1 = some (str "RIGHT") := by
  simp only [selectAnchor, h]
  rw [if_pos (by simpa [rangeLength] using hc)]
  exact ⟨rfl, rfl, rfl, rfl⟩

theorem selectAnchor_removed_branch (dls : List DiffLine) (s e : Int)
    (hlt : rangeLength (longestConsecutiveRange (addedNumsOf dls)) <
      max 1 (rangeLength (longestConsecutiveRange (removedNumsOf dls))))
    (h : longestConsecutiveRange (removedNumsOf dls) = some (s, e))
    (h1 : 1 ≤ e - s) :
    (selectAnchor dls).1 = some s ∧ (selectAnchor dls).2.1 = some e ∧
      (selectAnchor dls).2.2.1 = str "LEFT" ∧
      (selectAnchor dls).2.2.2.1 = some (str "LEFT") := by
  cases ha : longestConsecutiveRange (addedNumsOf dls) with
  | none =>
    simp only [selectAnchor, ha, h]
    rw [if_pos (by simpa [rangeLength] using h1)]
    exact ⟨rfl, rfl, rfl, rfl⟩
  | some r =>
    rw [ha, h] at hlt
    simp only [selectAnchor, ha, h]
    rw [if_neg (not_le.mpr hlt), if_pos (by simpa [rangeLength] using h1)]
    exact ⟨rfl, rfl, rfl, rfl⟩

theorem selectAnchor_fallback_branch (dls : List DiffLine)
    (hlt : rangeLength (longestConsecutiveRange (addedNumsOf dls)) <
      max 1 (rangeLength (longestConsecutiveRange (removedNumsOf dls))))
    (h2 : rangeLength (longestConsecutiveRange (removedNumsOf dls)) < 1) :
    selectAnchor dls = fallbackSelection dls := by
  cases ha : longestConsecutiveRange (addedNumsOf dls) with
  | none =>
    cases hr : longestConsecutiveRange (removedNumsOf dls) with
    | none => simp only [selectAnchor, ha, hr]
    | some r =>
      rw [hr] at h2
      simp only [selectAnchor, ha, hr]
      rw [if_neg (by simpa [rangeLength] using not_le.mpr h2)]
  | some r =>
    rw [ha] at hlt
    cases hr : longestConsecutiveRange (removedNumsOf dls) with
    | none =>
      rw [hr] at hlt
      simp only [selectAnchor, ha, hr]
      rw [if_neg (not_le.mpr hlt)]
    | some r2 =>
      rw [hr] at hlt h2
      simp only [selectAnchor, ha, hr]
      rw [if_neg (not_le.mpr hlt), if_neg (by simpa [rangeLength] using not_le.mpr h2)]

theorem createComment_fields (d : DiffLine) (ds : List DiffLine)
    (issue : ReviewIssue) (fname : List Char) (hunk : DiffHunk) :
    ∃ cm, createCommentFromDiffLines (d :: ds) issue fname hunk = some cm ∧
      cm.start_line = (selectAnchor (d :: ds)).1 ∧
      cm.line = (selectAnchor (d :: ds)).2.1 ∧
      cm.side = some ((selectAnchor (d :: ds)).2.2.1) ∧
      cm.start_side = (if (selectAnchor (d :: ds)).1 ≠ none
        then (selectAnchor (d :: ds)).2.2.2.1 else none) ∧
      cm.severity = issue.severity :=
  ⟨_, rfl, rfl, rfl, rfl, rfl, rfl⟩

/-- C1 (amended): the resolver chooses the Added run exactly when its
length (end − start) is at least `max(1, length of the Removed run)` — so
an Added run must span at least two consecutive lines as well as be at
least as long as the Removed run; otherwise the Removed run is chosen when
its length is at least 1; otherwise (in particular whenever both runs are
single lines, the case the claim assigned to the Added run) the resolver
falls back to a single-line anchor with no start line and no start side. -/
theorem claim_C1_run_preference (diff_lines : List DiffLine) (issue : ReviewIssue)
    (filename : List Char) (hunk : DiffHunk) (hne : diff_lines ≠ []) :
    (∀ s e : Int,
      longestConsecutiveRange (addedNumsOf diff_lines) = some (s, e) →
      max 1 (rangeLength (longestConsecutiveRange (removedNumsOf diff_lines))) ≤ e - s →
      ∃ cm, createCommentFromDiffLines diff_lines issue filename hunk = some cm ∧
        cm.start_line = some s ∧ cm.line = some e ∧ cm.side = some (str "RIGHT") ∧
        cm.start_side = some (str "RIGHT")) ∧
    (rangeLength (longestConsecutiveRange (addedNumsOf diff_lines)) <
        max 1 (rangeLength (longestConsecutiveRange (removedNumsOf diff_lines))) →
      ∀ s e : Int,
        longestConsecutiveRange (removedNumsOf diff_lines) = some (s, e) →
        1 ≤ e - s →
        ∃ cm, createCommentFromDiffLines diff_lines issue filename hunk = some cm ∧
          cm.start_line = some s ∧ cm.line = some e ∧ cm.side = some (str "LEFT") ∧
          cm.start_side = some (str "LEFT")) ∧
    (rangeLength (longestConsecutiveRange (addedNumsOf diff_lines)) <
        max 1 (rangeLength (longestConsecutiveRange (removedNumsOf diff_lines))) →
      rangeLength (longestConsecutiveRange (removedNumsOf diff_lines)) < 1 →
      ∃ cm, createCommentFromDiffLines diff_lines issue filename hunk = some cm ∧
        cm.start_line = none ∧ cm.start_side = none) := by
  obtain ⟨d, ds, rfl⟩ := List.exists_cons_of_ne_nil hne
  refine ⟨?_, ?_, ?_⟩
  · intro s e h hc
    obtain ⟨cm, hcm, f1, f2, f3, f4, f5⟩ := createComment_fields d ds issue filename hunk
    obtain ⟨s1, s2, s3, s4⟩ := selectAnchor_added_branch (d :: ds) s e h hc
    refine ⟨cm, hcm, ?_, ?_, ?_, ?_⟩
    · rw [f1, s1]
    · rw [f2, s2]
    · rw [f3, s3]
    · rw [f4, s1, if_pos (by simp), s4]
  · intro hlt s e h h1
    obtain ⟨cm, hcm, f1, f2, f3, f4, f5⟩ := createComment_fields d ds issue filename hunk
    obtain ⟨s1, s2, s3, s4⟩ := selectAnchor_removed_branch (d :: ds) s e hlt h h1
    refine ⟨cm, hcm, ?_, ?_, ?_, ?_⟩
    · rw [f1, s1]
    · rw [f2, s2]
    · rw [f3, s3]
    · rw [f4, s1, if_pos (by simp), s4]
  · intro hlt h2
    obtain ⟨cm, hcm, f1, f2, f3, f4, f5⟩ := createComment_fields d ds issue filename hunk
    have hfb := selectAnchor_fallback_branch (d :: ds) hlt h2
    obtain ⟨n1, n2⟩ := fallbackSelection_no_range (d :: ds)
    refine ⟨cm, hcm, ?_, ?_⟩
    · rw [f1, hfb, n1]
    · rw [f4, hfb, n1, if_neg (by simp)]

/-- An Added diff line with the given new line number. -/
def demoAddedLine (n : Int) : DiffLine :=
  { type := .added, content := str "    x = 1", old_line_number := none,
    new_line_number := some n }

/-- A Removed diff line with the given old line number. -/
def demoRemovedLine (n : Int) : DiffLine :=
  { type := .removed, content := str "y = 2", old_line_number := some n,
    new_line_number := none }

/-- A concrete issue for exercising the placement resolver. -/
def demoIssue : ReviewIssue :=
  { title := str "t", description := str "d", severity := .medium,
    file_path := str "demo.py", line := some 12, start_line := some 10,
    suggestion := none, category := str "general", change_type := .bug,
    ai_side := none }

/-- A concrete hunk (the resolver does not read it). -/
def demoHunk : DiffHunk :=
  { old_start := 1, old_count := 1, new_start := 10, new_count := 3,
    lines := [], header := str "@@" }

/-- The spec's worked example: target lines 10-12 Added, 20 Removed. -/
def demoDiffLines : List DiffLine :=
  [demoAddedLine 10, demoAddedLine 11, demoAddedLine 12, demoRemovedLine 20]

theorem claim_C1_witness :
    (demoDiffLines ≠ [] ∧
      longestConsecutiveRange (addedNumsOf demoDiffLines) = some (10, 12) ∧
      max 1 (rangeLength (longestConsecutiveRange (removedNumsOf demoDiffLines))) ≤
        12 - 10) ∧
    ∃ cm, createCommentFromDiffLines demoDiffLines demoIssue (str "demo.py") demoHunk =
        some cm ∧
      cm.start_line = some 10 ∧ cm.line = some 12 ∧ cm.side = some (str "RIGHT") ∧
      cm.start_side = some (str "RIGHT") :=
  ⟨⟨by decide, by decide, by decide⟩,
    (claim_C1_run_preference demoDiffLines demoIssue (str "demo.py") demoHunk
      (by decide)).1 10 12 (by decide) (by decide)⟩

/-- One single Added line and one single Removed line. -/
def demoSingleAddSingleRem : List DiffLine :=
  [demoAddedLine 10, demoRemovedLine 20]

/-- C1 counterexample: with a length-0 Added run (single line 10) and a
length-0 Removed run (single line 20) the claim's rule "Added run chosen
whenever its length ≥ the Removed run's length" (0 ≥ 0) predicts the Added
run (10, 10) is selected — a ranged anchor with `start_line = 10` and
`start_side = RIGHT`.  The code instead requires the Added run length to
reach `max(1, removed)` and falls back to a single-line anchor: the comment
has `line = 10` but `start_line = none` and `start_side = none`. -/
theorem claim_C1_counterexample :
    longestConsecutiveRange (addedNumsOf demoSingleAddSingleRem) = some (10, 10) ∧
    longestConsecutiveRange (removedNumsOf demoSingleAddSingleRem) = some (20, 20) ∧
    rangeLength (longestConsecutiveRange (removedNumsOf demoSingleAddSingleRem)) ≤
      rangeLength (longestConsecutiveRange (addedNumsOf demoSingleAddSingleRem)) ∧
    (createCommentFromDiffLines demoSingleAddSingleRem demoIssue (str "demo.py")
        demoHunk).map (fun cm => cm.start_line) = some none ∧
    (createCommentFromDiffLines demoSingleAddSingleRem demoIssue (str "demo.py")
        demoHunk).map (fun cm => cm.line) = some (some 10) ∧
    (createCommentFromDiffLines demoSingleAddSingleRem demoIssue (str "demo.py")
        demoHunk).map (fun cm => cm.start_side) = some none := by
  decide

/-! ## C2 and C10 -/

theorem foldl_min_nat_spec (l : List Nat) :
    ∀ a : Nat, l.foldl min a ≤ a ∧ ∀ x ∈ l, l.foldl min a ≤ x := by
  induction l with
  | nil => intro a; exact ⟨le_refl a, by simp⟩
  | cons z zs ih =>
    intro a
    obtain ⟨h1, h2⟩ := ih (min a z)
    refine ⟨le_trans h1 (min_le_left a z), ?_⟩
    intro x hx
    rcases List.mem_cons.mp hx with rfl | hx
    · exact le_trans h1 (min_le_right a x)
    · exact h2 x hx

theorem listMinNat_le (l : List Nat) (y : Nat) (hy : y ∈ l) : listMinNat l ≤ y := by
  cases l with
  | nil => simp at hy
  | cons x xs =>
    obtain ⟨h1, h2⟩ := foldl_min_nat_spec xs x
    rcases List.mem_cons.mp hy with rfl | hy
    · exact h1
    · exact h2 y hy

theorem leadingWsLen_le (ln : List Char) : leadingWsLen ln ≤ ln.length :=
  (List.takeWhile_sublist isIndentChar).length_le

theorem minCommonIndent_le (s ln : List Char) (hln : ln ∈ splitNl s)
    (hnb : isBlankLine ln = false) :
    minCommonIndent (splitNl s) ≤ leadingWsLen ln := by
  apply listMinNat_le
  exact List.mem_map.mpr ⟨ln, List.mem_filter.mpr ⟨hln, by simp [hnb]⟩, rfl⟩

theorem reindentLine_eq (s base : List Char) :
    ∀ ln ∈ splitNl s, reindentLine base (minCommonIndent (splitNl s)) ln =
      if isBlankLine ln then ln
      else base ++ ln.drop (minCommonIndent (splitNl s)) := by
  intro ln hln
  by_cases hb : isBlankLine ln
  · simp [reindentLine, hb]
  · have hb' : isBlankLine ln = false := Bool.not_eq_true _ ▸ eq_false_of_ne_true hb
    have h1 := minCommonIndent_le s ln hln hb'
    have h2 : minCommonIndent (splitNl s) ≤ ln.length :=
      le_trans h1 (leadingWsLen_le ln)
    rw [reindentLine, if_neg hb, if_neg hb, if_pos h2]

/-- Modelled from the spec's words for comparison with the source
(§4.2 suggestion reformatting, claim C2): compute the minimum leading
whitespace over non-blank lines, strip exactly that many characters from
every non-blank line, prepend the reference indentation to every non-blank
line, pass blank lines through unchanged, and join. -/
def reindentClaimed (suggestion base : List Char) : List Char :=
  joinNl ((splitNl suggestion).map (fun ln =>
    if isBlankLine ln then ln
    else base ++ ln.drop (minCommonIndent (splitNl suggestion))))

theorem reindentedLines_eq_claimed (s base : List Char) :
    joinNl (reindentedLines s base) = reindentClaimed s base := by
  unfold reindentedLines reindentClaimed
  exact congrArg joinNl (List.map_congr_left (reindentLine_eq s base))

theorem reindented_Q (s base : List Char) (hbase : base.all isIndentChar = true) :
    ∀ ln2 ∈ reindentedLines s base,
      (isBlankLine ln2 = true ∨
        (base.length ≤ leadingWsLen ln2 ∧ List.IsPrefix base ln2)) ∧ '\n' ∉ ln2 := by
  intro ln2 h2
  obtain ⟨ln, hln, rfl⟩ := List.mem_map.mp h2
  have hnl : '\n' ∉ ln := splitNl_no_nl s ln hln
  have hbase' : ∀ a ∈ base, isIndentChar a = true := List.all_eq_true.mp hbase
  have hbnl : '\n' ∉ base := by
    intro hmem
    have := hbase' '\n' hmem
    simp [isIndentChar] at this
  by_cases hb : isBlankLine ln
  · rw [reindentLine, if_pos hb]
    exact ⟨Or.inl hb, hnl⟩
  · rw [reindentLine, if_neg hb]
    refine ⟨Or.inr ⟨?_, ⟨_, rfl⟩⟩, ?_⟩
    · rw [leadingWsLen, List.takeWhile_append_of_pos hbase', List.length_append]
      omega
    · intro hmem
      rcases List.mem_append.mp hmem with hmem | hmem
      · exact hbnl hmem
      · by_cases hlen : minCommonIndent (splitNl s) ≤ ln.length
        · rw [if_pos hlen] at hmem
          exact hnl ((List.drop_sublist _ _).mem hmem)
        · rw [if_neg hlen] at hmem
          exact hnl ((List.dropWhile_sublist isPyWs).mem hmem)

theorem stripTrail_Q (base : List Char) (R : List (List Char))
    (hQ : ∀ x ∈ R, isBlankLine x = true ∨ base.length ≤ leadingWsLen x)
    (hnl : ∀ x ∈ R, '\n' ∉ x) :
    ∀ y ∈ stripTrail R,
      (isBlankLine y = true ∨ base.length ≤ leadingWsLen y) ∧ '\n' ∉ y := by
  intro y hy
  rcases stripTrail_mem hy with h | ⟨x, hx, rfl⟩
  · exact ⟨hQ y h, hnl y h⟩
  · constructor
    · by_cases hz : pyRstrip x = []
      · rw [hz]
        left
        rfl
      · obtain ⟨hb, hl⟩ := pyRstrip_keeps_lws x hz
        rcases hQ x hx with hxb | hxl
        · exact absurd ((pyRstrip_eq_nil_iff x).mpr hxb) hz
        · right
          rw [hl]
          exact hxl
    · intro hmem
      exact hnl x hx (pyRstrip_subset hmem)

theorem keepLine_of_Q (blen : Nat) (x : List Char)
    (h : isBlankLine x = true ∨ blen ≤ leadingWsLen x) : keepLine blen x = true := by
  rcases h with h | h
  · simp [keepLine, h]
  · have hlt : ¬ (leadingWsLen x < blen) := not_lt.mpr h
    simp [keepLine, hlt]

/-- Core lemma for C2 and C10: when some line is non-blank and the
reference indentation is genuine whitespace, the safety filter keeps every
line, so `_reindent_suggestion` returns the reindented lines joined and
right-stripped. -/
theorem reindent_core (s base : List Char)
    (hnb : (splitNl s).filter (fun ln => !isBlankLine ln) ≠ [])
    (hbase : base.all isIndentChar = true) :
    (∀ ln ∈ splitNl (pyRstrip (joinNl (reindentedLines s base))),
      keepLine base.length ln = true) ∧
    reindentSuggestion s base = pyRstrip (joinNl (reindentedLines s base)) := by
  have hQall := reindented_Q s base hbase
  have hQ : ∀ x ∈ reindentedLines s base,
      isBlankLine x = true ∨ base.length ≤ leadingWsLen x := by
    intro x hx
    rcases (hQall x hx).1 with h | ⟨h, _⟩
    · exact Or.inl h
    · exact Or.inr h
  have hnl : ∀ x ∈ reindentedLines s base, '\n' ∉ x :=
    fun x hx => (hQall x hx).2
  obtain ⟨hjoin, hnonempty⟩ := pyRstrip_joinNl (reindentedLines s base)
  have hunfold : reindentSuggestion s base =
      pyRstrip (joinNl ((splitNl (pyRstrip (joinNl (reindentedLines s base)))).filter
        (keepLine base.length))) := by
    unfold reindentSuggestion
    rw [if_neg hnb]
  cases hst : stripTrail (reindentedLines s base) with
  | nil =>
    constructor
    · intro ln hln
      rw [hjoin, hst] at hln
      simp only [joinNl, splitNl, List.mem_singleton] at hln
      subst hln
      rfl
    · rw [hunfold, hjoin, hst]
      rfl
  | cons r rs =>
    have hne2 : stripTrail (reindentedLines s base) ≠ [] := by rw [hst]; simp
    rw [← hst] at *
    have hQst := stripTrail_Q base (reindentedLines s base) hQ hnl
    have hnlst : ∀ y ∈ stripTrail (reindentedLines s base), '\n' ∉ y :=
      fun y hy => (hQst y hy).2
    have hsplit : splitNl (pyRstrip (joinNl (reindentedLines s base))) =
        stripTrail (reindentedLines s base) := by
      rw [hjoin]
      exact splitNl_joinNl _ hne2 hnlst
    constructor
    · intro ln hln
      rw [hsplit] at hln
      exact keepLine_of_Q _ _ (hQst ln hln).1
    · rw [hunfold, hsplit,
        List.filter_eq_self.mpr (fun x hx => keepLine_of_Q _ _ (hQst x hx).1),
        ← hjoin, pyRstrip_idem]

/-- C2 (amended): the reformatting is the claim's per-line transformation —
minimum leading-whitespace width computed over the non-blank lines, exactly
that many leading characters stripped from and the reference indentation
prepended to every non-blank line, blank lines passed through — followed by
right-stripping the joined result (trailing whitespace, including trailing
blank lines, is removed, per §4.2's trailing trim); the spec's worked
example holds verbatim. -/
theorem claim_C2_reindent_matches_spec (s base : List Char)
    (hnb : (splitNl s).filter (fun ln => !isBlankLine ln) ≠ [])
    (hbase : base.all isIndentChar = true) :
    reindentSuggestion s base = pyRstrip (reindentClaimed s base) ∧
    reindentSuggestion (str "    x=1\n        y=2") (str "  ") =
      str "  x=1\n      y=2" := by
  constructor
  · rw [(reindent_core s base hnb hbase).2, reindentedLines_eq_claimed]
  · decide

theorem claim_C2_witness :
    ((splitNl (str "    x=1\n        y=2")).filter (fun ln => !isBlankLine ln) ≠ [] ∧
      (str "  ").all isIndentChar = true) ∧
    reindentSuggestion (str "    x=1\n        y=2") (str "  ") =
      pyRstrip (reindentClaimed (str "    x=1\n        y=2") (str "  ")) :=
  ⟨⟨by decide, by decide⟩,
    (claim_C2_reindent_matches_spec (str "    x=1\n        y=2") (str "  ")
      (by decide) (by decide)).1⟩

/-- C2 counterexample: the claim's transformation alone (blank lines passed
through unchanged, nothing else) disagrees with the code on a suggestion
with a trailing newline: the code right-strips the joined result, dropping
the trailing blank line. -/
theorem claim_C2_counterexample :
    reindentSuggestion (str "    x=1\n") (str "  ") = str "  x=1" ∧
    reindentClaimed (str "    x=1\n") (str "  ") = str "  x=1\n" ∧
    reindentSuggestion (str "    x=1\n") (str "  ") ≠
      reindentClaimed (str "    x=1\n") (str "  ") := by
  refine ⟨by decide, by decide, by decide⟩

/-- Modelled from the claim's words for comparison with the source (C10):
the reindented lines with only the trailing blank lines trimmed. -/
def reindentTrailingBlanksTrimmed (suggestion base : List Char) : List Char :=
  joinNl ((reindentedLines suggestion base).reverse.dropWhile isBlankLine).reverse

/-- C10 (amended): every non-blank line produced by the reindentation step
begins with the reference indentation, so the safety filter never removes
any line; the reformatted output equals the reindented lines joined and
right-stripped — trailing whitespace is trimmed, which removes trailing
blank lines and also trailing spaces inside the last kept line. -/
theorem claim_C10_filter_never_drops (s base : List Char)
    (hnb : (splitNl s).filter (fun ln => !isBlankLine ln) ≠ [])
    (hbase : base.all isIndentChar = true) :
    (∀ ln ∈ reindentedLines s base,
      isBlankLine ln = true ∨
        (base.length ≤ leadingWsLen ln ∧ List.IsPrefix base ln)) ∧
    (∀ ln ∈ splitNl (pyRstrip (joinNl (reindentedLines s base))),
      keepLine base.length ln = true) ∧
    reindentSuggestion s base = pyRstrip (joinNl (reindentedLines s base)) := by
  refine ⟨?_, (reindent_core s base hnb hbase).1, (reindent_core s base hnb hbase).2⟩
  intro ln hln
  exact (reindented_Q s base hbase ln hln).1

theorem claim_C10_witness :
    ((splitNl (str "  a\n\n    b\n")).filter (fun ln => !isBlankLine ln) ≠ [] ∧
      (str "\t").all isIndentChar = true) ∧
    reindentSuggestion (str "  a\n\n    b\n") (str "\t") =
      pyRstrip (joinNl (reindentedLines (str "  a\n\n    b\n") (str "\t"))) :=
  ⟨⟨by decide, by decide⟩,
    (claim_C10_filter_never_drops (str "  a\n\n    b\n") (str "\t")
      (by decide) (by decide)).2.2⟩

/-- C10 counterexample: on the suggestion `"x "` with empty reference
indentation the reindented lines are `["x "]`, which have no trailing blank
line to trim — yet the code's final `rstrip` also removes the trailing
space, so the output is `"x"`, not the claimed `"x "`. -/
theorem claim_C10_counterexample :
    reindentSuggestion (str "x ") [] = str "x" ∧
    reindentTrailingBlanksTrimmed (str "x ") [] = str "x " ∧
    reindentSuggestion (str "x ") [] ≠ reindentTrailingBlanksTrimmed (str "x ") [] := by
  refine ⟨by decide, by decide, by decide⟩

end NeuraReview
